import Mathlib

/-!
Shallow embedding of the duplicate-file triage engine in src/file_manager.py.

The engine scans a directory listing, routes archive files (names ending in
".zip") to an archive area, detects near-duplicate files by filename
similarity and token-multiset overlap, and moves the smaller member of a
duplicate pair to a duplicates area.

Modelling choices:
- A file is a name together with its textual content; its size is the
  UTF-8 byte length of the content (os.path.getsize on a text file).
- The filename-similarity primitive (difflib.SequenceMatcher.ratio, a
  library collaborator external to the repository) is a rational-valued
  parameter of the configuration.
- Real-valued scores and thresholds are rationals. Exact ratios of
  machine integers are built with mkRat, which agrees with division by a
  nonzero denominator; this keeps every definition reducible by the
  kernel.
- Python exceptions that can escape the method are modelled with Except;
  the only such exception reachable in the model is ZeroDivisionError
  (filesystem primitives in the model do not fail).
- Both loops are written with explicit fuel so that every definition
  evaluates by kernel reduction; the fuel used by the top-level entry
  point is proved sufficient.
- Runs produce a trace of observable events: content reads, token-set
  comparisons (which read the candidate content), and file moves.
-/

deriving instance DecidableEq for Except

/-- A file of the scanned directory: its name and its textual content. -/
structure FSFile where
  name : String
  content : String
deriving DecidableEq

/-- Size in bytes of a file, os.path.getsize of a UTF-8 text file. -/
def FSFile.size (f : FSFile) : Nat := f.content.utf8ByteSize

/-- Python str.endswith: exact, case-sensitive suffix comparison. -/
def pyEndsWith (s suffix : String) : Bool :=
  suffix.toList.isSuffixOf s.toList

/-- Python exceptions that can escape compare_and_move_files unwrapped in
the model. -/
inductive PyErr where
  | zeroDivision
deriving DecidableEq

/-- Destination areas of a relocation. -/
inductive Dest where
  | dup
  | zip
deriving DecidableEq

/-- Observable events of a run. readF f is a read_file_content call on f;
cmpTokens a b is the content comparison of lines 151-154 of the source,
which reads the content of the candidate b and compares token multisets
with the anchor a; move f d relocates f to the area d. -/
inductive Ev where
  | readF (f : FSFile)
  | cmpTokens (a b : FSFile)
  | move (f : FSFile) (d : Dest)
deriving DecidableEq

/-- How an inner scan ended: the for loop ran to its end, the scan broke
with index j promoted to the outer index (i = j), or the anchor itself was
relocated (skip_file1 = True). -/
inductive InnerExit where
  | exhausted
  | promoted (j : Nat)
  | anchorConsumed
deriving DecidableEq

/-- Configuration of the FileManager: the three numeric thresholds of the
constructor and the filename-similarity primitive (SequenceMatcher.ratio). -/
structure Config where
  size_difference_threshold : ℚ
  similarity_ratio_threshold : ℚ
  similarity_skip_threshold : ℚ
  fnSim : String → String → ℚ

/-- Accumulator-based word splitter over the character list. -/
def tokenizeAux : List Char → List Char → List String
  | [], acc => if acc = [] then [] else [String.mk acc.reverse]
  | c :: rest, acc =>
    if c.isWhitespace then
      if acc = [] then tokenizeAux rest []
      else String.mk acc.reverse :: tokenizeAux rest []
    else tokenizeAux rest (c :: acc)

/-- Python str.split() with no argument: the maximal whitespace-free words
of the text, in order. -/
def tokenize (text : String) : List String :=
  tokenizeAux text.toList []

/-- Counter(tokens): the multiset of whitespace tokens of a content
string. -/
def get_token_set (content : String) : Multiset String :=
  (tokenize content : List String)

/-- Lines 78-81 of the source: sum of per-token minimum counts divided by
sum of per-token maximum counts (mkRat c t is c / t for nonzero t).
Python raises ZeroDivisionError when the denominator is zero, which the
model surfaces as an error. -/
def compare_token_sets (set1 set2 : Multiset String) : Except PyErr ℚ :=
  let common_tokens := Multiset.card (set1 ∩ set2)
  let total_tokens := Multiset.card (set1 ∪ set2)
  if total_tokens = 0 then Except.error PyErr.zeroDivision
  else Except.ok (mkRat common_tokens total_tokens)

/-- Line 142 of the source: whether the relative size gap of the pair
exceeds the configured threshold. Python raises ZeroDivisionError when
both sizes are zero. -/
def size_gap_exceeds (cfg : Config) (size1 size2 : Nat) : Except PyErr Bool :=
  if max size1 size2 = 0 then Except.error PyErr.zeroDivision
  else Except.ok
    (decide (cfg.size_difference_threshold <
      mkRat (((size1 : Int) - (size2 : Int)).natAbs) (max size1 size2)))

/-- Line 84 of the source: compare_filenames delegates to the similarity
primitive of the configuration. -/
def compare_filenames (cfg : Config) (name1 name2 : String) : ℚ :=
  cfg.fnSim name1 name2

/-- The inner for loop of compare_and_move_files (lines 111-174), scanning
candidates j against the fixed anchor file1 at index i. Returns none only
when the fuel runs out before j reaches the end of the working set. -/
def innerGo (cfg : Config) (file1 : FSFile) (ts1 : Multiset String) (i : Nat) :
    Nat → List (Option FSFile) → Nat →
    Option (List Ev × Except PyErr (List (Option FSFile) × InnerExit))
  | 0, files, j =>
    if j < files.length then none
    else some ([], Except.ok (files, InnerExit.exhausted))
  | fuel + 1, files, j =>
    if j < files.length then
      match files.getD j none with
      | none => innerGo cfg file1 ts1 i fuel files (j + 1)
      | some file2 =>
        if pyEndsWith file2.name ".zip" then
          match innerGo cfg file1 ts1 i fuel (files.set j none) (j + 1) with
          | none => none
          | some (t, r) => some (Ev.move file2 Dest.zip :: t, r)
        else
          if mkRat 7 10 ≤ compare_filenames cfg file1.name file2.name then
            match innerGo cfg file1 ts1 i fuel (files.set j none) (j + 1) with
            | none => none
            | some (t, r) => some (Ev.move file2 Dest.dup :: t, r)
          else if compare_filenames cfg file1.name file2.name ≤ mkRat 3 10 then
            some ([Ev.readF file2], Except.ok (files, InnerExit.promoted j))
          else
            match size_gap_exceeds cfg file1.size file2.size with
            | Except.error e => some ([], Except.error e)
            | Except.ok true =>
              some ([Ev.readF file2], Except.ok (files, InnerExit.promoted j))
            | Except.ok false =>
              match compare_token_sets ts1 (get_token_set file2.content) with
              | Except.error e => some ([Ev.cmpTokens file1 file2], Except.error e)
              | Except.ok similarity =>
                if similarity < cfg.similarity_skip_threshold then
                  some ([Ev.cmpTokens file1 file2, Ev.readF file2],
                    Except.ok (files, InnerExit.promoted j))
                else if cfg.similarity_ratio_threshold < similarity then
                  if file1.size < file2.size then
                    some ([Ev.cmpTokens file1 file2, Ev.move file1 Dest.dup],
                      Except.ok (files.set i none, InnerExit.anchorConsumed))
                  else
                    match innerGo cfg file1 ts1 i fuel (files.set j none) (j + 1) with
                    | none => none
                    | some (t, r) =>
                      some (Ev.cmpTokens file1 file2 :: Ev.move file2 Dest.dup :: t, r)
                else
                  match innerGo cfg file1 ts1 i fuel files (j + 1) with
                  | none => none
                  | some (t, r) => some (Ev.cmpTokens file1 file2 :: t, r)
    else some ([], Except.ok (files, InnerExit.exhausted))

/-- The index at which the outer loop resumes after an inner scan: lines
176-179 of the source advance i by one in both branches, on top of the
assignment i = j performed by a promotion break. -/
def nextIndex (i : Nat) : InnerExit → Nat
  | InnerExit.promoted j => j + 1
  | _ => i + 1

/-- The outer while loop of compare_and_move_files (lines 90-179). After an
inner scan, lines 176-179 advance i by one in both branches, so a
promotion that set i = j resumes the outer loop at j + 1. Returns none only
when the fuel runs out before i reaches the end of the working set. -/
def outerGo (cfg : Config) :
    Nat → List (Option FSFile) → Nat →
    Option (List Ev × Except PyErr (List (Option FSFile)))
  | 0, files, i =>
    if i < files.length then none
    else some ([], Except.ok files)
  | fuel + 1, files, i =>
    if i < files.length then
      match files.getD i none with
      | none => outerGo cfg fuel files (i + 1)
      | some file1 =>
        if pyEndsWith file1.name ".zip" then
          match outerGo cfg fuel (files.set i none) (i + 1) with
          | none => none
          | some (t, r) => some (Ev.move file1 Dest.zip :: t, r)
        else
          match innerGo cfg file1 (get_token_set file1.content) i
              files.length files (i + 1) with
          | none => none
          | some (t, Except.error e) =>
            some (Ev.readF file1 :: t, Except.error e)
          | some (t, Except.ok (files2, ex)) =>
            match outerGo cfg fuel files2 (nextIndex i ex) with
            | none => none
            | some (t2, r2) => some (Ev.readF file1 :: (t ++ t2), r2)
    else some ([], Except.ok files)

/-- compare_and_move_files on a directory listing: run the outer loop from
index 0 over the listing, with fuel equal to the length of the listing.
The result pairs the event trace with either the final working set or the
Python exception that escaped. -/
def compare_and_move_files (cfg : Config) (listing : List FSFile) :
    Option (List Ev × Except PyErr (List (Option FSFile))) :=
  outerGo cfg listing.length (listing.map some) 0

/-- Configuration with the default thresholds of the FileManager
constructor and a given filename-similarity primitive. -/
def defaultCfg (sim : String → String → ℚ) : Config :=
  ⟨mkRat 1 2, mkRat 17 20, mkRat 3 10, sim⟩

/-- Whether an event reads, compares or moves the given file. -/
def mentions (f : FSFile) : Ev → Bool
  | Ev.readF g => g = f
  | Ev.cmpTokens a b => a = f || b = f
  | Ev.move g _ => g = f

/-- A trace that never touches the given file. -/
def NoTouch (f : FSFile) (t : List Ev) : Prop :=
  ∀ e ∈ t, mentions f e = false

/-- After any move of the given file, the rest of the trace never touches
it again. -/
def SoundT (f : FSFile) (t : List Ev) : Prop :=
  ∀ t1 d t2, t = t1 ++ Ev.move f d :: t2 → NoTouch f t2

/-- The names of the files a working set still holds are pairwise
distinct (os.scandir lists each directory entry once). -/
def NamesNodup (files : List (Option FSFile)) : Prop :=
  ((files.filterMap id).map FSFile.name).Nodup

instance (files : List (Option FSFile)) : Decidable (NamesNodup files) :=
  List.nodupDecidable ((files.filterMap id).map FSFile.name)


/-! ## Concrete directories used by the claims -/

/-- Constant mid-band filename similarity, as difflib returns for names
that share an extension but differ in their stems. -/
def midSim : String → String → ℚ := fun _ _ => mkRat 1 2

def c1f1 : FSFile := ⟨"zzz.txt", "q w e r t"⟩
def c1f2 : FSFile := ⟨"report_a.txt", "alpha beta gamma delta"⟩
def c1f3 : FSFile := ⟨"report_b.txt", "alpha beta gamma delta"⟩

/-- Filename similarity giving the dissimilarity skip against the first
anchor and a mid-band value between the two report files. -/
def c1sim : String → String → ℚ :=
  fun a _ => if a = "zzz.txt" then mkRat 1 4 else mkRat 3 5

def c2A : FSFile := ⟨"noteA.txt", "a b"⟩
def c2B : FSFile := ⟨"noteB.txt", "a          b"⟩

def c4A : FSFile := ⟨"aaa.txt", ""⟩
def c4B : FSFile := ⟨"bbb.txt", ""⟩

/-- The exact SequenceMatcher ratio of "aaa.txt" and "bbb.txt": the names
share the four characters ".txt" out of seven each, 2*4/14 = 4/7. -/
def c4sim : String → String → ℚ := fun _ _ => mkRat 4 7

def c3wA : FSFile := ⟨"wsA.txt", " "⟩
def c3wB : FSFile := ⟨"wsB.txt", " "⟩

def c5X : FSFile := ⟨"x5A.txt", "t u  v"⟩
def c5Y : FSFile := ⟨"x5B.txt", "t u v"⟩
def c5Z : FSFile := ⟨"x5C.txt", "m n o p q"⟩

def c6A : FSFile := ⟨"c6A.txt", "x y"⟩
def c6B : FSFile := ⟨"c6B.txt", "x z"⟩

def c7A : FSFile := ⟨"c7A.txt", "a b"⟩
def c7B : FSFile := ⟨"c7B.txt", "a  b"⟩

def c8A : FSFile := ⟨"aaa.txt", ""⟩
def c8B : FSFile := ⟨"bbb.txt", ""⟩
def c8Z : FSFile := ⟨"arch.zip", "x"⟩

def c10A : FSFile := ⟨"A.ZIP", "x y"⟩
def c10B : FSFile := ⟨"b.tar", "x z"⟩
def c10Z : FSFile := ⟨"z.zip", "c"⟩


/-! ## Basic lemmas about working-set slots -/

/-- Reading the slot of a list of optional files. -/
lemma getD_eq_getElem? (l : List (Option FSFile)) (k : Nat) :
    l.getD k none = (l[k]?).getD none := by
  simp [List.getD]

lemma slot_set_self {l : List (Option FSFile)} {k : Nat} (b : Option FSFile)
    (h : k < l.length) : (l.set k b).getD k none = b := by
  rw [getD_eq_getElem?, List.getElem?_set_self' ]
  simp [List.getElem?_eq_getElem h]

lemma slot_set_ne {l : List (Option FSFile)} {k m : Nat} (b : Option FSFile)
    (h : k ≠ m) : (l.set k b).getD m none = l.getD m none := by
  rw [getD_eq_getElem?, getD_eq_getElem?, List.getElem?_set_ne h]

lemma slot_mem {l : List (Option FSFile)} {k : Nat} {f : FSFile}
    (h : l.getD k none = some f) : some f ∈ l := by
  rw [getD_eq_getElem?] at h
  cases hk : l[k]? with
  | none => rw [hk] at h; simp at h
  | some o =>
    rw [hk] at h
    simp at h
    subst h
    rw [List.getElem?_eq_some] at hk
    obtain ⟨hlt, hval⟩ := hk
    exact hval ▸ List.getElem_mem hlt

lemma slot_oob {l : List (Option FSFile)} {k : Nat}
    (h : l.length ≤ k) : l.getD k none = none := by
  rw [getD_eq_getElem?, List.getElem?_eq_none h]
  rfl

/-! ## Unfolding equations for the two loops -/

lemma innerGo_zero (cfg : Config) (file1 : FSFile) (ts1 : Multiset String)
    (i : Nat) (files : List (Option FSFile)) (j : Nat) :
    innerGo cfg file1 ts1 i 0 files j =
      if j < files.length then none
      else some ([], Except.ok (files, InnerExit.exhausted)) := rfl

lemma innerGo_succ (cfg : Config) (file1 : FSFile) (ts1 : Multiset String)
    (i fuel : Nat) (files : List (Option FSFile)) (j : Nat) :
    innerGo cfg file1 ts1 i (fuel + 1) files j =
      (if j < files.length then
        match files.getD j none with
        | none => innerGo cfg file1 ts1 i fuel files (j + 1)
        | some file2 =>
          if pyEndsWith file2.name ".zip" then
            match innerGo cfg file1 ts1 i fuel (files.set j none) (j + 1) with
            | none => none
            | some (t, r) => some (Ev.move file2 Dest.zip :: t, r)
          else
            if mkRat 7 10 ≤ compare_filenames cfg file1.name file2.name then
              match innerGo cfg file1 ts1 i fuel (files.set j none) (j + 1) with
              | none => none
              | some (t, r) => some (Ev.move file2 Dest.dup :: t, r)
            else if compare_filenames cfg file1.name file2.name ≤ mkRat 3 10 then
              some ([Ev.readF file2], Except.ok (files, InnerExit.promoted j))
            else
              match size_gap_exceeds cfg file1.size file2.size with
              | Except.error e => some ([], Except.error e)
              | Except.ok true =>
                some ([Ev.readF file2], Except.ok (files, InnerExit.promoted j))
              | Except.ok false =>
                match compare_token_sets ts1 (get_token_set file2.content) with
                | Except.error e => some ([Ev.cmpTokens file1 file2], Except.error e)
                | Except.ok similarity =>
                  if similarity < cfg.similarity_skip_threshold then
                    some ([Ev.cmpTokens file1 file2, Ev.readF file2],
                      Except.ok (files, InnerExit.promoted j))
                  else if cfg.similarity_ratio_threshold < similarity then
                    if file1.size < file2.size then
                      some ([Ev.cmpTokens file1 file2, Ev.move file1 Dest.dup],
                        Except.ok (files.set i none, InnerExit.anchorConsumed))
                    else
                      match innerGo cfg file1 ts1 i fuel (files.set j none) (j + 1) with
                      | none => none
                      | some (t, r) =>
                        some (Ev.cmpTokens file1 file2 :: Ev.move file2 Dest.dup :: t, r)
                  else
                    match innerGo cfg file1 ts1 i fuel files (j + 1) with
                    | none => none
                    | some (t, r) => some (Ev.cmpTokens file1 file2 :: t, r)
      else some ([], Except.ok (files, InnerExit.exhausted))) := rfl

lemma outerGo_zero (cfg : Config) (files : List (Option FSFile)) (i : Nat) :
    outerGo cfg 0 files i =
      if i < files.length then none
      else some ([], Except.ok files) := rfl

lemma outerGo_succ (cfg : Config) (fuel : Nat) (files : List (Option FSFile)) (i : Nat) :
    outerGo cfg (fuel + 1) files i =
      (if i < files.length then
        match files.getD i none with
        | none => outerGo cfg fuel files (i + 1)
        | some file1 =>
          if pyEndsWith file1.name ".zip" then
            match outerGo cfg fuel (files.set i none) (i + 1) with
            | none => none
            | some (t, r) => some (Ev.move file1 Dest.zip :: t, r)
          else
            match innerGo cfg file1 (get_token_set file1.content) i
                files.length files (i + 1) with
            | none => none
            | some (t, Except.error e) =>
              some (Ev.readF file1 :: t, Except.error e)
            | some (t, Except.ok (files2, ex)) =>
              match outerGo cfg fuel files2 (nextIndex i ex) with
              | none => none
              | some (t2, r2) => some (Ev.readF file1 :: (t ++ t2), r2)
      else some ([], Except.ok files)) := rfl

/-! ## Structural invariants of the inner scan -/

lemma inner_len (cfg : Config) (file1 : FSFile) (ts1 : Multiset String) (i : Nat) :
    ∀ fuel files j t files2 ex,
      innerGo cfg file1 ts1 i fuel files j = some (t, Except.ok (files2, ex)) →
      files2.length = files.length := by
  intro fuel
  induction fuel with
  | zero =>
    intro files j t files2 ex h
    rw [innerGo_zero] at h
    split at h
    · simp at h
    · simp only [Option.some.injEq, Prod.mk.injEq, Except.ok.injEq] at h
      obtain ⟨-, h2, -⟩ := h
      rw [h2]
  | succ fuel ih =>
    intro files j t files2 ex h
    rw [innerGo_succ] at h
    split at h
    case isFalse hj =>
      simp only [Option.some.injEq, Prod.mk.injEq, Except.ok.injEq] at h
      obtain ⟨-, h2, -⟩ := h
      rw [h2]
    case isTrue hj =>
      split at h
      case h_1 heq =>
        exact ih files (j + 1) t files2 ex h
      case h_2 file2 heq =>
        split at h
        case isTrue hzip =>
          split at h
          case h_1 hrec => simp at h
          case h_2 p t' r' hrec =>
            simp only [Option.some.injEq, Prod.mk.injEq] at h
            obtain ⟨-, h2⟩ := h
            subst h2
            have := ih (files.set j none) (j + 1) t' files2 ex hrec
            simpa using this
        case isFalse hzip =>
          split at h
          case isTrue hname =>
            split at h
            case h_1 hrec => simp at h
            case h_2 p t' r' hrec =>
              simp only [Option.some.injEq, Prod.mk.injEq] at h
              obtain ⟨-, h2⟩ := h
              subst h2
              have := ih (files.set j none) (j + 1) t' files2 ex hrec
              simpa using this
          case isFalse hname =>
            split at h
            case isTrue hlow =>
              simp only [Option.some.injEq, Prod.mk.injEq, Except.ok.injEq] at h
              obtain ⟨-, h2, -⟩ := h
              rw [h2]
            case isFalse hlow =>
              split at h
              case h_1 e hgap => simp at h
              case h_2 hgap =>
                simp only [Option.some.injEq, Prod.mk.injEq, Except.ok.injEq] at h
                obtain ⟨-, h2, -⟩ := h
                rw [h2]
              case h_3 hgap =>
                split at h
                case h_1 e hcmp => simp at h
                case h_2 similarity hcmp =>
                  split at h
                  case isTrue hskip =>
                    simp only [Option.some.injEq, Prod.mk.injEq, Except.ok.injEq] at h
                    obtain ⟨-, h2, -⟩ := h
                    rw [h2]
                  case isFalse hskip =>
                    split at h
                    case isTrue hdup =>
                      split at h
                      case isTrue hsz =>
                        simp only [Option.some.injEq, Prod.mk.injEq, Except.ok.injEq] at h
                        obtain ⟨-, h2, -⟩ := h
                        rw [← h2]
                        simp
                      case isFalse hsz =>
                        split at h
                        case h_1 hrec => simp at h
                        case h_2 p t' r' hrec =>
                          simp only [Option.some.injEq, Prod.mk.injEq] at h
                          obtain ⟨-, h2⟩ := h
                          subst h2
                          have := ih (files.set j none) (j + 1) t' files2 ex hrec
                          simpa using this
                    case isFalse hdup =>
                      split at h
                      case h_1 hrec => simp at h
                      case h_2 p t' r' hrec =>
                        simp only [Option.some.injEq, Prod.mk.injEq] at h
                        obtain ⟨-, h2⟩ := h
                        subst h2
                        exact ih files (j + 1) t' files2 ex hrec

lemma slot_set_same (l : List (Option FSFile)) (k : Nat) :
    (l.set k none).getD k none = none := by
  rcases lt_or_ge k l.length with h | h
  · exact slot_set_self none h
  · exact slot_oob (by simpa using h)

/-- The inner scan only empties slots: every slot of its result either
kept its previous value or became none. -/
lemma inner_slots (cfg : Config) (file1 : FSFile) (ts1 : Multiset String) (i : Nat) :
    ∀ fuel files j t files2 ex,
      innerGo cfg file1 ts1 i fuel files j = some (t, Except.ok (files2, ex)) →
      ∀ k, files2.getD k none = files.getD k none ∨ files2.getD k none = none := by
  intro fuel
  induction fuel with
  | zero =>
    intro files j t files2 ex h k
    rw [innerGo_zero] at h
    split at h
    · simp at h
    · simp only [Option.some.injEq, Prod.mk.injEq, Except.ok.injEq] at h
      obtain ⟨-, h2, -⟩ := h
      rw [h2]
      left; rfl
  | succ fuel ih =>
    intro files j t files2 ex h k
    rw [innerGo_succ] at h
    split at h
    case isFalse hj =>
      simp only [Option.some.injEq, Prod.mk.injEq, Except.ok.injEq] at h
      obtain ⟨-, h2, -⟩ := h
      rw [h2]; left; rfl
    case isTrue hj =>
      split at h
      case h_1 heq => exact ih files (j + 1) t files2 ex h k
      case h_2 file2 heq =>
        have setStep : ∀ t' , innerGo cfg file1 ts1 i fuel (files.set j none) (j + 1) =
            some (t', Except.ok (files2, ex)) →
            files2.getD k none = files.getD k none ∨ files2.getD k none = none := by
          intro t' hrec
          rcases ih (files.set j none) (j + 1) t' files2 ex hrec k with hk | hk
          · by_cases hkj : k = j
            · right; rw [hk, hkj, slot_set_same]
            · left; rw [hk, slot_set_ne none (fun hh => hkj hh.symm)]
          · right; exact hk
        split at h
        case isTrue hzip =>
          split at h
          case h_1 hrec => simp at h
          case h_2 p t' r' hrec =>
            simp only [Option.some.injEq, Prod.mk.injEq] at h
            obtain ⟨-, h2⟩ := h
            subst h2
            exact setStep t' hrec
        case isFalse hzip =>
          split at h
          case isTrue hname =>
            split at h
            case h_1 hrec => simp at h
            case h_2 p t' r' hrec =>
              simp only [Option.some.injEq, Prod.mk.injEq] at h
              obtain ⟨-, h2⟩ := h
              subst h2
              exact setStep t' hrec
          case isFalse hname =>
            split at h
            case isTrue hlow =>
              simp only [Option.some.injEq, Prod.mk.injEq, Except.ok.injEq] at h
              obtain ⟨-, h2, -⟩ := h
              rw [h2]; left; rfl
            case isFalse hlow =>
              split at h
              case h_1 e hgap => simp at h
              case h_2 hgap =>
                simp only [Option.some.injEq, Prod.mk.injEq, Except.ok.injEq] at h
                obtain ⟨-, h2, -⟩ := h
                rw [h2]; left; rfl
              case h_3 hgap =>
                split at h
                case h_1 e hcmp => simp at h
                case h_2 similarity hcmp =>
                  split at h
                  case isTrue hskip =>
                    simp only [Option.some.injEq, Prod.mk.injEq, Except.ok.injEq] at h
                    obtain ⟨-, h2, -⟩ := h
                    rw [h2]; left; rfl
                  case isFalse hskip =>
                    split at h
                    case isTrue hdup =>
                      split at h
                      case isTrue hsz =>
                        simp only [Option.some.injEq, Prod.mk.injEq, Except.ok.injEq] at h
                        obtain ⟨-, h2, -⟩ := h
                        rw [← h2]
                        by_cases hki : k = i
                        · right; rw [hki, slot_set_same]
                        · left; rw [slot_set_ne none (fun hh => hki hh.symm)]
                      case isFalse hsz =>
                        split at h
                        case h_1 hrec => simp at h
                        case h_2 p t' r' hrec =>
                          simp only [Option.some.injEq, Prod.mk.injEq] at h
                          obtain ⟨-, h2⟩ := h
                          subst h2
                          exact setStep t' hrec
                    case isFalse hdup =>
                      split at h
                      case h_1 hrec => simp at h
                      case h_2 p t' r' hrec =>
                        simp only [Option.some.injEq, Prod.mk.injEq] at h
                        obtain ⟨-, h2⟩ := h
                        subst h2
                        exact ih files (j + 1) t' files2 ex hrec k

/-- A promotion reported by the inner scan names an index at or beyond the
scan start and within the working set. -/
lemma inner_promoted_bound (cfg : Config) (file1 : FSFile) (ts1 : Multiset String) (i : Nat) :
    ∀ fuel files j t files2 jp,
      innerGo cfg file1 ts1 i fuel files j =
        some (t, Except.ok (files2, InnerExit.promoted jp)) →
      j ≤ jp ∧ jp < files.length := by
  intro fuel
  induction fuel with
  | zero =>
    intro files j t files2 jp h
    rw [innerGo_zero] at h
    split at h
    · simp at h
    · simp at h
  | succ fuel ih =>
    intro files j t files2 jp h
    rw [innerGo_succ] at h
    split at h
    case isFalse hj => simp at h
    case isTrue hj =>
      split at h
      case h_1 heq =>
        have := ih files (j + 1) t files2 jp h
        omega
      case h_2 file2 heq =>
        have fromSet : ∀ t', innerGo cfg file1 ts1 i fuel (files.set j none) (j + 1) =
            some (t', Except.ok (files2, InnerExit.promoted jp)) →
            j ≤ jp ∧ jp < files.length := by
          intro t' hrec
          have := ih (files.set j none) (j + 1) t' files2 jp hrec
          simp only [List.length_set] at this
          omega
        split at h
        case isTrue hzip =>
          split at h
          case h_1 hrec => simp at h
          case h_2 p t' r' hrec =>
            simp only [Option.some.injEq, Prod.mk.injEq] at h
            obtain ⟨-, h2⟩ := h
            subst h2
            exact fromSet t' hrec
        case isFalse hzip =>
          split at h
          case isTrue hname =>
            split at h
            case h_1 hrec => simp at h
            case h_2 p t' r' hrec =>
              simp only [Option.some.injEq, Prod.mk.injEq] at h
              obtain ⟨-, h2⟩ := h
              subst h2
              exact fromSet t' hrec
          case isFalse hname =>
            split at h
            case isTrue hlow =>
              simp only [Option.some.injEq, Prod.mk.injEq, Except.ok.injEq,
                InnerExit.promoted.injEq] at h
              obtain ⟨-, -, h3⟩ := h
              omega
            case isFalse hlow =>
              split at h
              case h_1 e hgap => simp at h
              case h_2 hgap =>
                simp only [Option.some.injEq, Prod.mk.injEq, Except.ok.injEq,
                  InnerExit.promoted.injEq] at h
                obtain ⟨-, -, h3⟩ := h
                omega
              case h_3 hgap =>
                split at h
                case h_1 e hcmp => simp at h
                case h_2 similarity hcmp =>
                  split at h
                  case isTrue hskip =>
                    simp only [Option.some.injEq, Prod.mk.injEq, Except.ok.injEq,
                      InnerExit.promoted.injEq] at h
                    obtain ⟨-, -, h3⟩ := h
                    omega
                  case isFalse hskip =>
                    split at h
                    case isTrue hdup =>
                      split at h
                      case isTrue hsz => simp at h
                      case isFalse hsz =>
                        split at h
                        case h_1 hrec => simp at h
                        case h_2 p t' r' hrec =>
                          simp only [Option.some.injEq, Prod.mk.injEq] at h
                          obtain ⟨-, h2⟩ := h
                          subst h2
                          exact fromSet t' hrec
                    case isFalse hdup =>
                      split at h
                      case h_1 hrec => simp at h
                      case h_2 p t' r' hrec =>
                        simp only [Option.some.injEq, Prod.mk.injEq] at h
                        obtain ⟨-, h2⟩ := h
                        subst h2
                        have := ih files (j + 1) t' files2 jp hrec
                        omega

/-- With fuel at least the number of remaining indices, the inner scan
does not run out of fuel. -/
lemma inner_isSome (cfg : Config) (file1 : FSFile) (ts1 : Multiset String) (i : Nat) :
    ∀ fuel files j, files.length - j ≤ fuel →
      (innerGo cfg file1 ts1 i fuel files j).isSome := by
  intro fuel
  induction fuel with
  | zero =>
    intro files j hf
    rw [innerGo_zero]
    split
    case isTrue hj => omega
    case isFalse hj => simp
  | succ fuel ih =>
    intro files j hf
    rw [innerGo_succ]
    split
    case isFalse hj => simp
    case isTrue hj =>
      have hrecSame : (innerGo cfg file1 ts1 i fuel files (j + 1)).isSome :=
        ih files (j + 1) (by omega)
      have hrecSet : (innerGo cfg file1 ts1 i fuel (files.set j none) (j + 1)).isSome :=
        ih (files.set j none) (j + 1) (by simp [List.length_set]; omega)
      split
      case h_1 heq => exact hrecSame
      case h_2 file2 heq =>
        split
        case isTrue hzip =>
          obtain ⟨out, hout⟩ := Option.isSome_iff_exists.mp hrecSet
          rw [hout]
          obtain ⟨t', r'⟩ := out
          simp
        case isFalse hzip =>
          split
          case isTrue hname =>
            obtain ⟨out, hout⟩ := Option.isSome_iff_exists.mp hrecSet
            rw [hout]
            obtain ⟨t', r'⟩ := out
            simp
          case isFalse hname =>
            split
            case isTrue hlow => simp
            case isFalse hlow =>
              split
              case h_1 e hgap => simp
              case h_2 hgap => simp
              case h_3 hgap =>
                split
                case h_1 e hcmp => simp
                case h_2 similarity hcmp =>
                  split
                  case isTrue hskip => simp
                  case isFalse hskip =>
                    split
                    case isTrue hdup =>
                      split
                      case isTrue hsz => simp
                      case isFalse hsz =>
                        obtain ⟨out, hout⟩ := Option.isSome_iff_exists.mp hrecSet
                        rw [hout]
                        obtain ⟨t', r'⟩ := out
                        simp
                    case isFalse hdup =>
                      obtain ⟨out, hout⟩ := Option.isSome_iff_exists.mp hrecSame
                      rw [hout]
                      obtain ⟨t', r'⟩ := out
                      simp

/-! ## Structural invariants of the outer loop -/

lemma outer_len (cfg : Config) :
    ∀ fuel files i t res,
      outerGo cfg fuel files i = some (t, Except.ok res) →
      res.length = files.length := by
  intro fuel
  induction fuel with
  | zero =>
    intro files i t res h
    rw [outerGo_zero] at h
    split at h
    · simp at h
    · simp only [Option.some.injEq, Prod.mk.injEq, Except.ok.injEq] at h
      obtain ⟨-, h2⟩ := h
      rw [h2]
  | succ fuel ih =>
    intro files i t res h
    rw [outerGo_succ] at h
    split at h
    case isFalse hi =>
      simp only [Option.some.injEq, Prod.mk.injEq, Except.ok.injEq] at h
      obtain ⟨-, h2⟩ := h
      rw [h2]
    case isTrue hi =>
      split at h
      case h_1 heq => exact ih files (i + 1) t res h
      case h_2 file1 heq =>
        split at h
        case isTrue hzip =>
          split at h
          case h_1 hrec => simp at h
          case h_2 p t' r' hrec =>
            simp only [Option.some.injEq, Prod.mk.injEq] at h
            obtain ⟨-, h2⟩ := h
            subst h2
            have := ih (files.set i none) (i + 1) t' res hrec
            simpa using this
        case isFalse hzip =>
          split at h
          case h_1 hinner => simp at h
          case h_2 p t' e hinner => simp at h
          case h_3 p t' files2 ex hinner =>
            split at h
            case h_1 hrec => simp at h
            case h_2 p2 t2 r2 hrec =>
              simp only [Option.some.injEq, Prod.mk.injEq] at h
              obtain ⟨-, h2⟩ := h
              subst h2
              have h3 := ih files2 _ t2 res hrec
              have h4 := inner_len cfg file1 (get_token_set file1.content) i
                files.length files (i + 1) t' files2 ex hinner
              omega

lemma outer_slots (cfg : Config) :
    ∀ fuel files i t res,
      outerGo cfg fuel files i = some (t, Except.ok res) →
      ∀ k, res.getD k none = files.getD k none ∨ res.getD k none = none := by
  intro fuel
  induction fuel with
  | zero =>
    intro files i t res h k
    rw [outerGo_zero] at h
    split at h
    · simp at h
    · simp only [Option.some.injEq, Prod.mk.injEq, Except.ok.injEq] at h
      obtain ⟨-, h2⟩ := h
      rw [h2]; left; rfl
  | succ fuel ih =>
    intro files i t res h k
    rw [outerGo_succ] at h
    split at h
    case isFalse hi =>
      simp only [Option.some.injEq, Prod.mk.injEq, Except.ok.injEq] at h
      obtain ⟨-, h2⟩ := h
      rw [h2]; left; rfl
    case isTrue hi =>
      split at h
      case h_1 heq => exact ih files (i + 1) t res h k
      case h_2 file1 heq =>
        split at h
        case isTrue hzip =>
          split at h
          case h_1 hrec => simp at h
          case h_2 p t' r' hrec =>
            simp only [Option.some.injEq, Prod.mk.injEq] at h
            obtain ⟨-, h2⟩ := h
            subst h2
            rcases ih (files.set i none) (i + 1) t' res hrec k with hk | hk
            · by_cases hki : k = i
              · right; rw [hk, hki, slot_set_same]
              · left; rw [hk, slot_set_ne none (fun hh => hki hh.symm)]
            · right; exact hk
        case isFalse hzip =>
          split at h
          case h_1 hinner => simp at h
          case h_2 p t' e hinner => simp at h
          case h_3 p t' files2 ex hinner =>
            split at h
            case h_1 hrec => simp at h
            case h_2 p2 t2 r2 hrec =>
              simp only [Option.some.injEq, Prod.mk.injEq] at h
              obtain ⟨-, h2⟩ := h
              subst h2
              rcases ih files2 _ t2 res hrec k with hk | hk
              · rcases inner_slots cfg file1 (get_token_set file1.content) i
                  files.length files (i + 1) t' files2 ex hinner k with hk2 | hk2
                · left; rw [hk, hk2]
                · right; rw [hk, hk2]
              · right; exact hk

/-- With fuel at least the number of remaining indices, the outer loop
does not run out of fuel: each iteration strictly increases the index. -/
lemma outer_isSome (cfg : Config) :
    ∀ fuel files i, files.length - i ≤ fuel →
      (outerGo cfg fuel files i).isSome := by
  intro fuel
  induction fuel with
  | zero =>
    intro files i hf
    rw [outerGo_zero]
    split
    case isTrue hi => omega
    case isFalse hi => simp
  | succ fuel ih =>
    intro files i hf
    rw [outerGo_succ]
    split
    case isFalse hi => simp
    case isTrue hi =>
      split
      case h_1 heq => exact ih files (i + 1) (by omega)
      case h_2 file1 heq =>
        split
        case isTrue hzip =>
          have hrec : (outerGo cfg fuel (files.set i none) (i + 1)).isSome :=
            ih (files.set i none) (i + 1) (by simp [List.length_set]; omega)
          obtain ⟨out, hout⟩ := Option.isSome_iff_exists.mp hrec
          rw [hout]
          obtain ⟨t', r'⟩ := out
          simp
        case isFalse hzip =>
          have hin : (innerGo cfg file1 (get_token_set file1.content) i
              files.length files (i + 1)).isSome :=
            inner_isSome cfg file1 (get_token_set file1.content) i
              files.length files (i + 1) (by omega)
          obtain ⟨out, hout⟩ := Option.isSome_iff_exists.mp hin
          rw [hout]
          obtain ⟨t', r'⟩ := out
          cases r' with
          | error e => simp
          | ok pr =>
            obtain ⟨files2, ex⟩ := pr
            have hlen2 : files2.length = files.length :=
              inner_len cfg file1 (get_token_set file1.content) i
                files.length files (i + 1) t' files2 ex hout
            have hstep : files2.length - nextIndex i ex ≤ fuel := by
              cases ex with
              | exhausted => simp only [nextIndex]; omega
              | anchorConsumed => simp only [nextIndex]; omega
              | promoted jp =>
                have hb := inner_promoted_bound cfg file1 (get_token_set file1.content) i
                  files.length files (i + 1) t' files2 jp hout
                simp only [nextIndex]
                omega
            have hrec2 := ih files2 _ hstep
            obtain ⟨out2, hout2⟩ := Option.isSome_iff_exists.mp hrec2
            show (match outerGo cfg fuel files2 (nextIndex i ex) with
              | none => none
              | some (t2, r2) => some (Ev.readF file1 :: (t' ++ t2), r2)).isSome = true
            rw [hout2]
            obtain ⟨t2, r2⟩ := out2
            simp

/-- The fuel used by compare_and_move_files is always sufficient. -/
lemma compare_and_move_files_isSome (cfg : Config) (listing : List FSFile) :
    (compare_and_move_files cfg listing).isSome := by
  unfold compare_and_move_files
  exact outer_isSome cfg listing.length (listing.map some) 0 (by simp)

/-! ## Origin of events in traces -/

/-- Every token comparison the inner scan performs is on a pair whose
relative size gap was computed and did not exceed the threshold. -/
lemma inner_cmp_guarded (cfg : Config) (file1 : FSFile) (ts1 : Multiset String) (i : Nat) :
    ∀ fuel files j t r,
      innerGo cfg file1 ts1 i fuel files j = some (t, r) →
      ∀ a b, Ev.cmpTokens a b ∈ t →
        size_gap_exceeds cfg a.size b.size = Except.ok false := by
  intro fuel
  induction fuel with
  | zero =>
    intro files j t r h a b hab
    rw [innerGo_zero] at h
    split at h
    · simp at h
    · simp only [Option.some.injEq, Prod.mk.injEq] at h
      obtain ⟨h1, -⟩ := h
      rw [← h1] at hab
      simp at hab
  | succ fuel ih =>
    intro files j t r h a b hab
    rw [innerGo_succ] at h
    split at h
    case isFalse hj =>
      simp only [Option.some.injEq, Prod.mk.injEq] at h
      obtain ⟨h1, -⟩ := h
      rw [← h1] at hab
      simp at hab
    case isTrue hj =>
      split at h
      case h_1 heq => exact ih files (j + 1) t r h a b hab
      case h_2 file2 heq =>
        split at h
        case isTrue hzip =>
          split at h
          case h_1 hrec => simp at h
          case h_2 p t' r' hrec =>
            simp only [Option.some.injEq, Prod.mk.injEq] at h
            obtain ⟨h1, h2⟩ := h
            subst h2
            rw [← h1] at hab
            rcases List.mem_cons.mp hab with hab | hab
            · simp at hab
            · exact ih (files.set j none) (j + 1) t' r' hrec a b hab
        case isFalse hzip =>
          split at h
          case isTrue hname =>
            split at h
            case h_1 hrec => simp at h
            case h_2 p t' r' hrec =>
              simp only [Option.some.injEq, Prod.mk.injEq] at h
              obtain ⟨h1, h2⟩ := h
              subst h2
              rw [← h1] at hab
              rcases List.mem_cons.mp hab with hab | hab
              · simp at hab
              · exact ih (files.set j none) (j + 1) t' r' hrec a b hab
          case isFalse hname =>
            split at h
            case isTrue hlow =>
              simp only [Option.some.injEq, Prod.mk.injEq] at h
              obtain ⟨h1, -⟩ := h
              rw [← h1] at hab
              simp at hab
            case isFalse hlow =>
              split at h
              case h_1 e hgap =>
                simp only [Option.some.injEq, Prod.mk.injEq] at h
                obtain ⟨h1, -⟩ := h
                rw [← h1] at hab
                simp at hab
              case h_2 hgap =>
                simp only [Option.some.injEq, Prod.mk.injEq] at h
                obtain ⟨h1, -⟩ := h
                rw [← h1] at hab
                simp at hab
              case h_3 hgap =>
                have hpair : ∀ x y : FSFile, Ev.cmpTokens file1 file2 = Ev.cmpTokens x y →
                    size_gap_exceeds cfg x.size y.size = Except.ok false := by
                  intro x y hxy
                  simp only [Ev.cmpTokens.injEq] at hxy
                  obtain ⟨hx, hy⟩ := hxy
                  rw [← hx, ← hy]
                  exact hgap
                split at h
                case h_1 e hcmp =>
                  simp only [Option.some.injEq, Prod.mk.injEq] at h
                  obtain ⟨h1, -⟩ := h
                  rw [← h1] at hab
                  rcases List.mem_cons.mp hab with hab | hab
                  · exact hpair a b hab.symm
                  · simp at hab
                case h_2 similarity hcmp =>
                  split at h
                  case isTrue hskip =>
                    simp only [Option.some.injEq, Prod.mk.injEq] at h
                    obtain ⟨h1, -⟩ := h
                    rw [← h1] at hab
                    rcases List.mem_cons.mp hab with hab | hab
                    · exact hpair a b hab.symm
                    · simp at hab
                  case isFalse hskip =>
                    split at h
                    case isTrue hdup =>
                      split at h
                      case isTrue hsz =>
                        simp only [Option.some.injEq, Prod.mk.injEq] at h
                        obtain ⟨h1, -⟩ := h
                        rw [← h1] at hab
                        rcases List.mem_cons.mp hab with hab | hab
                        · exact hpair a b hab.symm
                        · simp at hab
                      case isFalse hsz =>
                        split at h
                        case h_1 hrec => simp at h
                        case h_2 p t' r' hrec =>
                          simp only [Option.some.injEq, Prod.mk.injEq] at h
                          obtain ⟨h1, h2⟩ := h
                          subst h2
                          rw [← h1] at hab
                          rcases List.mem_cons.mp hab with hab | hab
                          · exact hpair a b hab.symm
                          · rcases List.mem_cons.mp hab with hab | hab
                            · simp at hab
                            · exact ih (files.set j none) (j + 1) t' r' hrec a b hab
                    case isFalse hdup =>
                      split at h
                      case h_1 hrec => simp at h
                      case h_2 p t' r' hrec =>
                        simp only [Option.some.injEq, Prod.mk.injEq] at h
                        obtain ⟨h1, h2⟩ := h
                        subst h2
                        rw [← h1] at hab
                        rcases List.mem_cons.mp hab with hab | hab
                        · exact hpair a b hab.symm
                        · exact ih files (j + 1) t' r' hrec a b hab

/-- Every token comparison of a whole run is on a pair whose relative size
gap did not exceed the threshold. -/
lemma outer_cmp_guarded (cfg : Config) :
    ∀ fuel files i t r,
      outerGo cfg fuel files i = some (t, r) →
      ∀ a b, Ev.cmpTokens a b ∈ t →
        size_gap_exceeds cfg a.size b.size = Except.ok false := by
  intro fuel
  induction fuel with
  | zero =>
    intro files i t r h a b hab
    rw [outerGo_zero] at h
    split at h
    · simp at h
    · simp only [Option.some.injEq, Prod.mk.injEq] at h
      obtain ⟨h1, -⟩ := h
      rw [← h1] at hab
      simp at hab
  | succ fuel ih =>
    intro files i t r h a b hab
    rw [outerGo_succ] at h
    split at h
    case isFalse hi =>
      simp only [Option.some.injEq, Prod.mk.injEq] at h
      obtain ⟨h1, -⟩ := h
      rw [← h1] at hab
      simp at hab
    case isTrue hi =>
      split at h
      case h_1 heq => exact ih files (i + 1) t r h a b hab
      case h_2 file1 heq =>
        split at h
        case isTrue hzip =>
          split at h
          case h_1 hrec => simp at h
          case h_2 p t' r' hrec =>
            simp only [Option.some.injEq, Prod.mk.injEq] at h
            obtain ⟨h1, h2⟩ := h
            subst h2
            rw [← h1] at hab
            rcases List.mem_cons.mp hab with hab | hab
            · simp at hab
            · exact ih (files.set i none) (i + 1) t' r' hrec a b hab
        case isFalse hzip =>
          split at h
          case h_1 hinner => simp at h
          case h_2 p t' e hinner =>
            simp only [Option.some.injEq, Prod.mk.injEq] at h
            obtain ⟨h1, -⟩ := h
            rw [← h1] at hab
            rcases List.mem_cons.mp hab with hab | hab
            · simp at hab
            · exact inner_cmp_guarded cfg file1 (get_token_set file1.content) i
                files.length files (i + 1) t' (Except.error e) hinner a b hab
          case h_3 p t' files2 ex hinner =>
            split at h
            case h_1 hrec => simp at h
            case h_2 p2 t2 r2 hrec =>
              simp only [Option.some.injEq, Prod.mk.injEq] at h
              obtain ⟨h1, h2⟩ := h
              subst h2
              rw [← h1] at hab
              rcases List.mem_cons.mp hab with hab | hab
              · simp at hab
              · rcases List.mem_append.mp hab with hab | hab
                · exact inner_cmp_guarded cfg file1 (get_token_set file1.content) i
                    files.length files (i + 1) t' (Except.ok (files2, ex)) hinner a b hab
                · exact ih files2 (nextIndex i ex) t2 r2 hrec a b hab

lemma mem_of_mem_set {l : List (Option FSFile)} {k : Nat} {f : FSFile}
    (h : some f ∈ l.set k none) : some f ∈ l := by
  rcases List.mem_or_eq_of_mem_set h with h2 | h2
  · exact h2
  · simp at h2

/-- Every archive move of the inner scan is of a file whose name ends in
".zip". -/
lemma inner_move_zip_name (cfg : Config) (file1 : FSFile) (ts1 : Multiset String) (i : Nat) :
    ∀ fuel files j t r,
      innerGo cfg file1 ts1 i fuel files j = some (t, r) →
      ∀ f, Ev.move f Dest.zip ∈ t → pyEndsWith f.name ".zip" = true := by
  intro fuel
  induction fuel with
  | zero =>
    intro files j t r h f hf
    rw [innerGo_zero] at h
    split at h
    · simp at h
    · simp only [Option.some.injEq, Prod.mk.injEq] at h
      obtain ⟨h1, -⟩ := h
      rw [← h1] at hf
      simp at hf
  | succ fuel ih =>
    intro files j t r h f hf
    rw [innerGo_succ] at h
    split at h
    case isFalse hj =>
      simp only [Option.some.injEq, Prod.mk.injEq] at h
      obtain ⟨h1, -⟩ := h
      rw [← h1] at hf
      simp at hf
    case isTrue hj =>
      split at h
      case h_1 heq => exact ih files (j + 1) t r h f hf
      case h_2 file2 heq =>
        split at h
        case isTrue hzip =>
          split at h
          case h_1 hrec => simp at h
          case h_2 p t' r' hrec =>
            simp only [Option.some.injEq, Prod.mk.injEq] at h
            obtain ⟨h1, h2⟩ := h
            subst h2
            rw [← h1] at hf
            rcases List.mem_cons.mp hf with hf | hf
            · simp only [Ev.move.injEq] at hf
              rw [hf.1]
              exact hzip
            · exact ih (files.set j none) (j + 1) t' r' hrec f hf
        case isFalse hzip =>
          split at h
          case isTrue hname =>
            split at h
            case h_1 hrec => simp at h
            case h_2 p t' r' hrec =>
              simp only [Option.some.injEq, Prod.mk.injEq] at h
              obtain ⟨h1, h2⟩ := h
              subst h2
              rw [← h1] at hf
              rcases List.mem_cons.mp hf with hf | hf
              · simp at hf
              · exact ih (files.set j none) (j + 1) t' r' hrec f hf
          case isFalse hname =>
            split at h
            case isTrue hlow =>
              simp only [Option.some.injEq, Prod.mk.injEq] at h
              obtain ⟨h1, -⟩ := h
              rw [← h1] at hf
              simp at hf
            case isFalse hlow =>
              split at h
              case h_1 e hgap =>
                simp only [Option.some.injEq, Prod.mk.injEq] at h
                obtain ⟨h1, -⟩ := h
                rw [← h1] at hf
                simp at hf
              case h_2 hgap =>
                simp only [Option.some.injEq, Prod.mk.injEq] at h
                obtain ⟨h1, -⟩ := h
                rw [← h1] at hf
                simp at hf
              case h_3 hgap =>
                split at h
                case h_1 e hcmp =>
                  simp only [Option.some.injEq, Prod.mk.injEq] at h
                  obtain ⟨h1, -⟩ := h
                  rw [← h1] at hf
                  simp at hf
                case h_2 similarity hcmp =>
                  split at h
                  case isTrue hskip =>
                    simp only [Option.some.injEq, Prod.mk.injEq] at h
                    obtain ⟨h1, -⟩ := h
                    rw [← h1] at hf
                    simp at hf
                  case isFalse hskip =>
                    split at h
                    case isTrue hdup =>
                      split at h
                      case isTrue hsz =>
                        simp only [Option.some.injEq, Prod.mk.injEq] at h
                        obtain ⟨h1, -⟩ := h
                        rw [← h1] at hf
                        simp at hf
                      case isFalse hsz =>
                        split at h
                        case h_1 hrec => simp at h
                        case h_2 p t' r' hrec =>
                          simp only [Option.some.injEq, Prod.mk.injEq] at h
                          obtain ⟨h1, h2⟩ := h
                          subst h2
                          rw [← h1] at hf
                          rcases List.mem_cons.mp hf with hf | hf
                          · simp at hf
                          · rcases List.mem_cons.mp hf with hf | hf
                            · simp at hf
                            · exact ih (files.set j none) (j + 1) t' r' hrec f hf
                    case isFalse hdup =>
                      split at h
                      case h_1 hrec => simp at h
                      case h_2 p t' r' hrec =>
                        simp only [Option.some.injEq, Prod.mk.injEq] at h
                        obtain ⟨h1, h2⟩ := h
                        subst h2
                        rw [← h1] at hf
                        rcases List.mem_cons.mp hf with hf | hf
                        · simp at hf
                        · exact ih files (j + 1) t' r' hrec f hf

/-- Every archive move of a whole run is of a file whose name ends in
".zip". -/
lemma outer_move_zip_name (cfg : Config) :
    ∀ fuel files i t r,
      outerGo cfg fuel files i = some (t, r) →
      ∀ f, Ev.move f Dest.zip ∈ t → pyEndsWith f.name ".zip" = true := by
  intro fuel
  induction fuel with
  | zero =>
    intro files i t r h f hf
    rw [outerGo_zero] at h
    split at h
    · simp at h
    · simp only [Option.some.injEq, Prod.mk.injEq] at h
      obtain ⟨h1, -⟩ := h
      rw [← h1] at hf
      simp at hf
  | succ fuel ih =>
    intro files i t r h f hf
    rw [outerGo_succ] at h
    split at h
    case isFalse hi =>
      simp only [Option.some.injEq, Prod.mk.injEq] at h
      obtain ⟨h1, -⟩ := h
      rw [← h1] at hf
      simp at hf
    case isTrue hi =>
      split at h
      case h_1 heq => exact ih files (i + 1) t r h f hf
      case h_2 file1 heq =>
        split at h
        case isTrue hzip =>
          split at h
          case h_1 hrec => simp at h
          case h_2 p t' r' hrec =>
            simp only [Option.some.injEq, Prod.mk.injEq] at h
            obtain ⟨h1, h2⟩ := h
            subst h2
            rw [← h1] at hf
            rcases List.mem_cons.mp hf with hf | hf
            · simp only [Ev.move.injEq] at hf
              rw [hf.1]
              exact hzip
            · exact ih (files.set i none) (i + 1) t' r' hrec f hf
        case isFalse hzip =>
          split at h
          case h_1 hinner => simp at h
          case h_2 p t' e hinner =>
            simp only [Option.some.injEq, Prod.mk.injEq] at h
            obtain ⟨h1, -⟩ := h
            rw [← h1] at hf
            rcases List.mem_cons.mp hf with hf | hf
            · simp at hf
            · exact inner_move_zip_name cfg file1 (get_token_set file1.content) i
                files.length files (i + 1) t' (Except.error e) hinner f hf
          case h_3 p t' files2 ex hinner =>
            split at h
            case h_1 hrec => simp at h
            case h_2 p2 t2 r2 hrec =>
              simp only [Option.some.injEq, Prod.mk.injEq] at h
              obtain ⟨h1, h2⟩ := h
              subst h2
              rw [← h1] at hf
              rcases List.mem_cons.mp hf with hf | hf
              · simp at hf
              · rcases List.mem_append.mp hf with hf | hf
                · exact inner_move_zip_name cfg file1 (get_token_set file1.content) i
                    files.length files (i + 1) t' (Except.ok (files2, ex)) hinner f hf
                · exact ih files2 (nextIndex i ex) t2 r2 hrec f hf

lemma mem_slot {l : List (Option FSFile)} {f : FSFile}
    (h : some f ∈ l) : ∃ k, l.getD k none = some f := by
  rw [List.mem_iff_getElem?] at h
  obtain ⟨k, hk⟩ := h
  exact ⟨k, by rw [getD_eq_getElem?, hk]; rfl⟩

/-- Every file the inner scan moves occupies a slot of the working set it
was given (the anchor occupies slot i). -/
lemma inner_move_mem (cfg : Config) (file1 : FSFile) (ts1 : Multiset String) (i : Nat) :
    ∀ fuel files j t r,
      files.getD i none = some file1 → i < j →
      innerGo cfg file1 ts1 i fuel files j = some (t, r) →
      ∀ f d, Ev.move f d ∈ t → some f ∈ files := by
  intro fuel
  induction fuel with
  | zero =>
    intro files j t r hai hij h f d hf
    rw [innerGo_zero] at h
    split at h
    · simp at h
    · simp only [Option.some.injEq, Prod.mk.injEq] at h
      obtain ⟨h1, -⟩ := h
      rw [← h1] at hf
      simp at hf
  | succ fuel ih =>
    intro files j t r hai hij h f d hf
    rw [innerGo_succ] at h
    split at h
    case isFalse hj =>
      simp only [Option.some.injEq, Prod.mk.injEq] at h
      obtain ⟨h1, -⟩ := h
      rw [← h1] at hf
      simp at hf
    case isTrue hj =>
      have haiSet : (files.set j none).getD i none = some file1 := by
        rw [slot_set_ne none (by omega)]
        exact hai
      split at h
      case h_1 heq => exact ih files (j + 1) t r hai (by omega) h f d hf
      case h_2 file2 heq =>
        split at h
        case isTrue hzip =>
          split at h
          case h_1 hrec => simp at h
          case h_2 p t' r' hrec =>
            simp only [Option.some.injEq, Prod.mk.injEq] at h
            obtain ⟨h1, h2⟩ := h
            subst h2
            rw [← h1] at hf
            rcases List.mem_cons.mp hf with hf | hf
            · simp only [Ev.move.injEq] at hf
              rw [hf.1]
              exact slot_mem heq
            · exact mem_of_mem_set
                (ih (files.set j none) (j + 1) t' r' haiSet (by omega) hrec f d hf)
        case isFalse hzip =>
          split at h
          case isTrue hname =>
            split at h
            case h_1 hrec => simp at h
            case h_2 p t' r' hrec =>
              simp only [Option.some.injEq, Prod.mk.injEq] at h
              obtain ⟨h1, h2⟩ := h
              subst h2
              rw [← h1] at hf
              rcases List.mem_cons.mp hf with hf | hf
              · simp only [Ev.move.injEq] at hf
                rw [hf.1]
                exact slot_mem heq
              · exact mem_of_mem_set
                  (ih (files.set j none) (j + 1) t' r' haiSet (by omega) hrec f d hf)
          case isFalse hname =>
            split at h
            case isTrue hlow =>
              simp only [Option.some.injEq, Prod.mk.injEq] at h
              obtain ⟨h1, -⟩ := h
              rw [← h1] at hf
              simp at hf
            case isFalse hlow =>
              split at h
              case h_1 e hgap =>
                simp only [Option.some.injEq, Prod.mk.injEq] at h
                obtain ⟨h1, -⟩ := h
                rw [← h1] at hf
                simp at hf
              case h_2 hgap =>
                simp only [Option.some.injEq, Prod.mk.injEq] at h
                obtain ⟨h1, -⟩ := h
                rw [← h1] at hf
                simp at hf
              case h_3 hgap =>
                split at h
                case h_1 e hcmp =>
                  simp only [Option.some.injEq, Prod.mk.injEq] at h
                  obtain ⟨h1, -⟩ := h
                  rw [← h1] at hf
                  simp at hf
                case h_2 similarity hcmp =>
                  split at h
                  case isTrue hskip =>
                    simp only [Option.some.injEq, Prod.mk.injEq] at h
                    obtain ⟨h1, -⟩ := h
                    rw [← h1] at hf
                    simp at hf
                  case isFalse hskip =>
                    split at h
                    case isTrue hdup =>
                      split at h
                      case isTrue hsz =>
                        simp only [Option.some.injEq, Prod.mk.injEq] at h
                        obtain ⟨h1, -⟩ := h
                        rw [← h1] at hf
                        rcases List.mem_cons.mp hf with hf | hf
                        · simp at hf
                        · rcases List.mem_cons.mp hf with hf | hf
                          · simp only [Ev.move.injEq] at hf
                            rw [hf.1]
                            exact slot_mem hai
                          · simp at hf
                      case isFalse hsz =>
                        split at h
                        case h_1 hrec => simp at h
                        case h_2 p t' r' hrec =>
                          simp only [Option.some.injEq, Prod.mk.injEq] at h
                          obtain ⟨h1, h2⟩ := h
                          subst h2
                          rw [← h1] at hf
                          rcases List.mem_cons.mp hf with hf | hf
                          · simp at hf
                          · rcases List.mem_cons.mp hf with hf | hf
                            · simp only [Ev.move.injEq] at hf
                              rw [hf.1]
                              exact slot_mem heq
                            · exact mem_of_mem_set
                                (ih (files.set j none) (j + 1) t' r' haiSet (by omega)
                                  hrec f d hf)
                    case isFalse hdup =>
                      split at h
                      case h_1 hrec => simp at h
                      case h_2 p t' r' hrec =>
                        simp only [Option.some.injEq, Prod.mk.injEq] at h
                        obtain ⟨h1, h2⟩ := h
                        subst h2
                        rw [← h1] at hf
                        rcases List.mem_cons.mp hf with hf | hf
                        · simp at hf
                        · exact ih files (j + 1) t' r' hai (by omega) hrec f d hf

/-- Every file a run moves occupies a slot of the working set the run
started from. -/
lemma outer_move_mem (cfg : Config) :
    ∀ fuel files i t r,
      outerGo cfg fuel files i = some (t, r) →
      ∀ f d, Ev.move f d ∈ t → some f ∈ files := by
  intro fuel
  induction fuel with
  | zero =>
    intro files i t r h f d hf
    rw [outerGo_zero] at h
    split at h
    · simp at h
    · simp only [Option.some.injEq, Prod.mk.injEq] at h
      obtain ⟨h1, -⟩ := h
      rw [← h1] at hf
      simp at hf
  | succ fuel ih =>
    intro files i t r h f d hf
    rw [outerGo_succ] at h
    split at h
    case isFalse hi =>
      simp only [Option.some.injEq, Prod.mk.injEq] at h
      obtain ⟨h1, -⟩ := h
      rw [← h1] at hf
      simp at hf
    case isTrue hi =>
      split at h
      case h_1 heq => exact ih files (i + 1) t r h f d hf
      case h_2 file1 heq =>
        split at h
        case isTrue hzip =>
          split at h
          case h_1 hrec => simp at h
          case h_2 p t' r' hrec =>
            simp only [Option.some.injEq, Prod.mk.injEq] at h
            obtain ⟨h1, h2⟩ := h
            subst h2
            rw [← h1] at hf
            rcases List.mem_cons.mp hf with hf | hf
            · simp only [Ev.move.injEq] at hf
              rw [hf.1]
              exact slot_mem heq
            · exact mem_of_mem_set (ih (files.set i none) (i + 1) t' r' hrec f d hf)
        case isFalse hzip =>
          split at h
          case h_1 hinner => simp at h
          case h_2 p t' e hinner =>
            simp only [Option.some.injEq, Prod.mk.injEq] at h
            obtain ⟨h1, -⟩ := h
            rw [← h1] at hf
            rcases List.mem_cons.mp hf with hf | hf
            · simp at hf
            · exact inner_move_mem cfg file1 (get_token_set file1.content) i
                files.length files (i + 1) t' (Except.error e) heq (by omega) hinner f d hf
          case h_3 p t' files2 ex hinner =>
            split at h
            case h_1 hrec => simp at h
            case h_2 p2 t2 r2 hrec =>
              simp only [Option.some.injEq, Prod.mk.injEq] at h
              obtain ⟨h1, h2⟩ := h
              subst h2
              rw [← h1] at hf
              rcases List.mem_cons.mp hf with hf | hf
              · simp at hf
              · rcases List.mem_append.mp hf with hf | hf
                · exact inner_move_mem cfg file1 (get_token_set file1.content) i
                    files.length files (i + 1) t' (Except.ok (files2, ex)) heq (by omega)
                    hinner f d hf
                · have hmem2 := ih files2 (nextIndex i ex) t2 r2 hrec f d hf
                  obtain ⟨k, hk⟩ := mem_slot hmem2
                  rcases inner_slots cfg file1 (get_token_set file1.content) i
                      files.length files (i + 1) t' files2 ex hinner k with hk2 | hk2
                  · exact slot_mem (by rw [← hk2]; exact hk)
                  · rw [hk] at hk2; simp at hk2

/-! ## Archive routing invariants -/

/-- When the inner scan ends in a promotion at jp, every slot of the
region it scanned (from its start up to jp) that still holds a file holds
one whose name does not end in ".zip". -/
lemma inner_promoted_region_nonzip (cfg : Config) (file1 : FSFile) (ts1 : Multiset String)
    (i : Nat) :
    ∀ fuel files j t files2 jp,
      innerGo cfg file1 ts1 i fuel files j =
        some (t, Except.ok (files2, InnerExit.promoted jp)) →
      ∀ k f, j ≤ k → k ≤ jp → files2.getD k none = some f →
        pyEndsWith f.name ".zip" = false := by
  intro fuel
  induction fuel with
  | zero =>
    intro files j t files2 jp h
    rw [innerGo_zero] at h
    split at h
    · simp at h
    · simp at h
  | succ fuel ih =>
    intro files j t files2 jp h k f hjk hkjp hk
    rw [innerGo_succ] at h
    split at h
    case isFalse hj => simp at h
    case isTrue hj =>
      have fromRec : ∀ files' t',
          innerGo cfg file1 ts1 i fuel files' (j + 1) =
            some (t', Except.ok (files2, InnerExit.promoted jp)) →
          files'.getD j none = none ∨
            (∃ g, files'.getD j none = some g ∧ pyEndsWith g.name ".zip" = false) →
          pyEndsWith f.name ".zip" = false := by
        intro files' t' hrec hslotj
        by_cases hkj : k = j
        · rcases inner_slots cfg file1 ts1 i fuel files' (j + 1) t' files2
              (InnerExit.promoted jp) hrec k with hs | hs
          · rw [hk, hkj] at hs
            rcases hslotj with hn | ⟨g, hg, hgz⟩
            · rw [hn] at hs; simp at hs
            · rw [hg] at hs
              simp only [Option.some.injEq] at hs
              rw [hs]
              exact hgz
          · rw [hk] at hs; simp at hs
        · exact ih files' (j + 1) t' files2 jp hrec k f (by omega) hkjp hk
      split at h
      case h_1 heq =>
        exact fromRec files t h (Or.inl heq)
      case h_2 file2 heq =>
        split at h
        case isTrue hzip =>
          split at h
          case h_1 hrec => simp at h
          case h_2 p t' r' hrec =>
            simp only [Option.some.injEq, Prod.mk.injEq] at h
            obtain ⟨-, h2⟩ := h
            subst h2
            exact fromRec (files.set j none) t' hrec (Or.inl (slot_set_same files j))
        case isFalse hzip =>
          split at h
          case isTrue hname =>
            split at h
            case h_1 hrec => simp at h
            case h_2 p t' r' hrec =>
              simp only [Option.some.injEq, Prod.mk.injEq] at h
              obtain ⟨-, h2⟩ := h
              subst h2
              exact fromRec (files.set j none) t' hrec (Or.inl (slot_set_same files j))
          case isFalse hname =>
            have hterm : files2 = files → jp = j →
                pyEndsWith f.name ".zip" = false := by
              intro h2 h3
              subst h2 h3
              have : k = jp := by omega
              subst this
              rw [heq] at hk
              simp only [Option.some.injEq] at hk
              rw [← hk]
              simpa using hzip
            split at h
            case isTrue hlow =>
              simp only [Option.some.injEq, Prod.mk.injEq, Except.ok.injEq,
                InnerExit.promoted.injEq] at h
              obtain ⟨-, h2, h3⟩ := h
              exact hterm h2.symm h3.symm
            case isFalse hlow =>
              split at h
              case h_1 e hgap => simp at h
              case h_2 hgap =>
                simp only [Option.some.injEq, Prod.mk.injEq, Except.ok.injEq,
                  InnerExit.promoted.injEq] at h
                obtain ⟨-, h2, h3⟩ := h
                exact hterm h2.symm h3.symm
              case h_3 hgap =>
                split at h
                case h_1 e hcmp => simp at h
                case h_2 similarity hcmp =>
                  split at h
                  case isTrue hskip =>
                    simp only [Option.some.injEq, Prod.mk.injEq, Except.ok.injEq,
                      InnerExit.promoted.injEq] at h
                    obtain ⟨-, h2, h3⟩ := h
                    exact hterm h2.symm h3.symm
                  case isFalse hskip =>
                    split at h
                    case isTrue hdup =>
                      split at h
                      case isTrue hsz => simp at h
                      case isFalse hsz =>
                        split at h
                        case h_1 hrec => simp at h
                        case h_2 p t' r' hrec =>
                          simp only [Option.some.injEq, Prod.mk.injEq] at h
                          obtain ⟨-, h2⟩ := h
                          subst h2
                          exact fromRec (files.set j none) t' hrec
                            (Or.inl (slot_set_same files j))
                    case isFalse hdup =>
                      split at h
                      case h_1 hrec => simp at h
                      case h_2 p t' r' hrec =>
                        simp only [Option.some.injEq, Prod.mk.injEq] at h
                        obtain ⟨-, h2⟩ := h
                        subst h2
                        exact fromRec files t' hrec
                          (Or.inr ⟨file2, heq, by simpa using hzip⟩)

/-- Every slot at or beyond the current index that still holds a file when
the outer loop completes holds a file whose name does not end in ".zip";
slots before the current index are untouched. -/
lemma outer_slots_nonzip (cfg : Config) :
    ∀ fuel files i t res,
      outerGo cfg fuel files i = some (t, Except.ok res) →
      ∀ k f, res.getD k none = some f →
        pyEndsWith f.name ".zip" = false ∨
          (files.getD k none = some f ∧ k < i) := by
  intro fuel
  induction fuel with
  | zero =>
    intro files i t res h k f hk
    rw [outerGo_zero] at h
    split at h
    case isTrue hi => simp at h
    case isFalse hi =>
      simp only [Option.some.injEq, Prod.mk.injEq, Except.ok.injEq] at h
      obtain ⟨-, h2⟩ := h
      subst h2
      right
      refine ⟨hk, ?_⟩
      by_contra hge
      rw [slot_oob (by omega)] at hk
      simp at hk
  | succ fuel ih =>
    intro files i t res h k f hk
    rw [outerGo_succ] at h
    split at h
    case isFalse hi =>
      simp only [Option.some.injEq, Prod.mk.injEq, Except.ok.injEq] at h
      obtain ⟨-, h2⟩ := h
      subst h2
      right
      refine ⟨hk, ?_⟩
      by_contra hge
      rw [slot_oob (by omega)] at hk
      simp at hk
    case isTrue hi =>
      split at h
      case h_1 heq =>
        rcases ih files (i + 1) t res h k f hk with hl | ⟨hr, hklt⟩
        · left; exact hl
        · by_cases hki : k = i
          · rw [hki, heq] at hr; simp at hr
          · right; exact ⟨hr, by omega⟩
      case h_2 file1 heq =>
        split at h
        case isTrue hzip =>
          split at h
          case h_1 hrec => simp at h
          case h_2 p t' r' hrec =>
            simp only [Option.some.injEq, Prod.mk.injEq] at h
            obtain ⟨-, h2⟩ := h
            subst h2
            rcases ih (files.set i none) (i + 1) t' res hrec k f hk with hl | ⟨hr, hklt⟩
            · left; exact hl
            · by_cases hki : k = i
              · rw [hki, slot_set_same] at hr; simp at hr
              · right
                rw [slot_set_ne none (fun hh => hki hh.symm)] at hr
                exact ⟨hr, by omega⟩
        case isFalse hzip =>
          split at h
          case h_1 hinner => simp at h
          case h_2 p t' e hinner => simp at h
          case h_3 p t' files2 ex hinner =>
            split at h
            case h_1 hrec => simp at h
            case h_2 p2 t2 r2 hrec =>
              simp only [Option.some.injEq, Prod.mk.injEq] at h
              obtain ⟨-, h2⟩ := h
              subst h2
              rcases ih files2 (nextIndex i ex) t2 res hrec k f hk with hl | ⟨hr, hklt⟩
              · left; exact hl
              · -- the slot survived the recursive outer run untouched
                have hs2 := inner_slots cfg file1 (get_token_set file1.content) i
                  files.length files (i + 1) t' files2 ex hinner k
                rcases hs2 with hs | hs
                · -- slot also untouched by the inner scan
                  by_cases hki : k = i
                  · left
                    rw [hki, heq] at hs
                    rw [hki] at hr
                    rw [hr] at hs
                    simp only [Option.some.injEq] at hs
                    rw [hs]
                    simpa using hzip
                  · by_cases hkle : k < i
                    · right; rw [hr] at hs; exact ⟨hs.symm, hkle⟩
                    · -- i < k: the slot lies in the region the inner scan covered
                      cases ex with
                      | exhausted =>
                        simp only [nextIndex] at hklt
                        omega
                      | anchorConsumed =>
                        simp only [nextIndex] at hklt
                        omega
                      | promoted jp =>
                        simp only [nextIndex] at hklt
                        left
                        exact inner_promoted_region_nonzip cfg file1
                          (get_token_set file1.content) i files.length files (i + 1)
                          t' files2 jp hinner k f (by omega) (by omega) hr
                · rw [hr] at hs; simp at hs

/-- Every archive-named file in the region the inner scan covers is either
moved to the archive area by the scan or still occupies its slot when the
scan ends. -/
lemma inner_zip_completeness (cfg : Config) (file1 : FSFile) (ts1 : Multiset String)
    (i : Nat) :
    ∀ fuel files j t files2 ex, i < j →
      innerGo cfg file1 ts1 i fuel files j = some (t, Except.ok (files2, ex)) →
      ∀ k f, j ≤ k → files.getD k none = some f → pyEndsWith f.name ".zip" = true →
        Ev.move f Dest.zip ∈ t ∨ files2.getD k none = some f := by
  intro fuel
  induction fuel with
  | zero =>
    intro files j t files2 ex hij h k f hjk hk hfz
    rw [innerGo_zero] at h
    split at h
    · simp at h
    · simp only [Option.some.injEq, Prod.mk.injEq, Except.ok.injEq] at h
      obtain ⟨-, h2, -⟩ := h
      right; rw [← h2]; exact hk
  | succ fuel ih =>
    intro files j t files2 ex hij h k f hjk hk hfz
    rw [innerGo_succ] at h
    split at h
    case isFalse hj =>
      simp only [Option.some.injEq, Prod.mk.injEq, Except.ok.injEq] at h
      obtain ⟨-, h2, -⟩ := h
      right; rw [← h2]; exact hk
    case isTrue hj =>
      split at h
      case h_1 heq =>
        by_cases hkj : k = j
        · rw [hkj, heq] at hk; simp at hk
        · exact ih files (j + 1) t files2 ex (by omega) h k f (by omega) hk hfz
      case h_2 file2 heq =>
        have recSet : ∀ t',
            innerGo cfg file1 ts1 i fuel (files.set j none) (j + 1) =
              some (t', Except.ok (files2, ex)) → k ≠ j →
            Ev.move f Dest.zip ∈ t' ∨ files2.getD k none = some f := by
          intro t' hrec hkj
          exact ih (files.set j none) (j + 1) t' files2 ex (by omega) hrec k f (by omega)
            (by rw [slot_set_ne none (fun hh => hkj hh.symm)]; exact hk) hfz
        split at h
        case isTrue hzip =>
          split at h
          case h_1 hrec => simp at h
          case h_2 p t' r' hrec =>
            simp only [Option.some.injEq, Prod.mk.injEq] at h
            obtain ⟨h1, h2⟩ := h
            subst h2
            by_cases hkj : k = j
            · left
              rw [← h1]
              rw [hkj, heq] at hk
              simp only [Option.some.injEq] at hk
              rw [← hk]
              exact List.mem_cons_self _ _
            · rcases recSet t' hrec hkj with hl | hr
              · left; rw [← h1]; exact List.mem_cons_of_mem _ hl
              · right; exact hr
        case isFalse hzip =>
          have hnotj : k ≠ j := by
            intro hkj
            rw [hkj, heq] at hk
            simp only [Option.some.injEq] at hk
            rw [← hk] at hfz
            rw [hfz] at hzip
            simp at hzip
          split at h
          case isTrue hname =>
            split at h
            case h_1 hrec => simp at h
            case h_2 p t' r' hrec =>
              simp only [Option.some.injEq, Prod.mk.injEq] at h
              obtain ⟨h1, h2⟩ := h
              subst h2
              rcases recSet t' hrec hnotj with hl | hr
              · left; rw [← h1]; exact List.mem_cons_of_mem _ hl
              · right; exact hr
          case isFalse hname =>
            split at h
            case isTrue hlow =>
              simp only [Option.some.injEq, Prod.mk.injEq, Except.ok.injEq] at h
              obtain ⟨-, h2, -⟩ := h
              right; rw [← h2]; exact hk
            case isFalse hlow =>
              split at h
              case h_1 e hgap => simp at h
              case h_2 hgap =>
                simp only [Option.some.injEq, Prod.mk.injEq, Except.ok.injEq] at h
                obtain ⟨-, h2, -⟩ := h
                right; rw [← h2]; exact hk
              case h_3 hgap =>
                split at h
                case h_1 e hcmp => simp at h
                case h_2 similarity hcmp =>
                  split at h
                  case isTrue hskip =>
                    simp only [Option.some.injEq, Prod.mk.injEq, Except.ok.injEq] at h
                    obtain ⟨-, h2, -⟩ := h
                    right; rw [← h2]; exact hk
                  case isFalse hskip =>
                    split at h
                    case isTrue hdup =>
                      split at h
                      case isTrue hsz =>
                        simp only [Option.some.injEq, Prod.mk.injEq, Except.ok.injEq] at h
                        obtain ⟨-, h2, -⟩ := h
                        right
                        rw [← h2]
                        rw [slot_set_ne none (by omega)]
                        exact hk
                      case isFalse hsz =>
                        split at h
                        case h_1 hrec => simp at h
                        case h_2 p t' r' hrec =>
                          simp only [Option.some.injEq, Prod.mk.injEq] at h
                          obtain ⟨h1, h2⟩ := h
                          subst h2
                          rcases recSet t' hrec hnotj with hl | hr
                          · left
                            rw [← h1]
                            exact List.mem_cons_of_mem _ (List.mem_cons_of_mem _ hl)
                          · right; exact hr
                    case isFalse hdup =>
                      split at h
                      case h_1 hrec => simp at h
                      case h_2 p t' r' hrec =>
                        simp only [Option.some.injEq, Prod.mk.injEq] at h
                        obtain ⟨h1, h2⟩ := h
                        subst h2
                        rcases ih files (j + 1) t' files2 ex (by omega) hrec k f (by omega) hk hfz
                          with hl | hr
                        · left; rw [← h1]; exact List.mem_cons_of_mem _ hl
                        · right; exact hr

/-- A completed outer run moves every archive-named file at or beyond its
current index to the archive area. -/
lemma outer_zip_completeness (cfg : Config) :
    ∀ fuel files i t res,
      outerGo cfg fuel files i = some (t, Except.ok res) →
      ∀ k f, i ≤ k → files.getD k none = some f → pyEndsWith f.name ".zip" = true →
        Ev.move f Dest.zip ∈ t := by
  intro fuel
  induction fuel with
  | zero =>
    intro files i t res h k f hik hk hfz
    rw [outerGo_zero] at h
    split at h
    case isTrue hi => simp at h
    case isFalse hi =>
      rw [slot_oob (by omega)] at hk
      simp at hk
  | succ fuel ih =>
    intro files i t res h k f hik hk hfz
    rw [outerGo_succ] at h
    split at h
    case isFalse hi =>
      rw [slot_oob (by omega)] at hk
      simp at hk
    case isTrue hi =>
      split at h
      case h_1 heq =>
        by_cases hki : k = i
        · rw [hki, heq] at hk; simp at hk
        · exact ih files (i + 1) t res h k f (by omega) hk hfz
      case h_2 file1 heq =>
        split at h
        case isTrue hzip =>
          split at h
          case h_1 hrec => simp at h
          case h_2 p t' r' hrec =>
            simp only [Option.some.injEq, Prod.mk.injEq] at h
            obtain ⟨h1, h2⟩ := h
            subst h2
            by_cases hki : k = i
            · rw [← h1]
              rw [hki, heq] at hk
              simp only [Option.some.injEq] at hk
              rw [← hk]
              exact List.mem_cons_self _ _
            · rw [← h1]
              refine List.mem_cons_of_mem _ ?_
              exact ih (files.set i none) (i + 1) t' res hrec k f (by omega)
                (by rw [slot_set_ne none (fun hh => hki hh.symm)]; exact hk) hfz
        case isFalse hzip =>
          split at h
          case h_1 hinner => simp at h
          case h_2 p t' e hinner => simp at h
          case h_3 p t' files2 ex hinner =>
            split at h
            case h_1 hrec => simp at h
            case h_2 p2 t2 r2 hrec =>
              simp only [Option.some.injEq, Prod.mk.injEq] at h
              obtain ⟨h1, h2⟩ := h
              subst h2
              rw [← h1]
              refine List.mem_cons_of_mem _ ?_
              rw [List.mem_append]
              by_cases hki : k = i
              · exfalso
                rw [hki, heq] at hk
                simp only [Option.some.injEq] at hk
                rw [← hk] at hfz
                rw [hfz] at hzip
                simp at hzip
              · rcases inner_zip_completeness cfg file1 (get_token_set file1.content) i
                    files.length files (i + 1) t' files2 ex (by omega) hinner k f
                    (by omega) hk hfz with hl | hr
                · left; exact hl
                · right
                  cases ex with
                  | exhausted =>
                    exact ih files2 (nextIndex i InnerExit.exhausted) t2 res hrec k f
                      (by simp [nextIndex]; omega) hr hfz
                  | anchorConsumed =>
                    exact ih files2 (nextIndex i InnerExit.anchorConsumed) t2 res hrec k f
                      (by simp [nextIndex]; omega) hr hfz
                  | promoted jp =>
                    by_cases hkjp : jp + 1 ≤ k
                    · exact ih files2 (nextIndex i (InnerExit.promoted jp)) t2 res hrec k f
                        (by simp [nextIndex]; omega) hr hfz
                    · exfalso
                      have := inner_promoted_region_nonzip cfg file1
                        (get_token_set file1.content) i files.length files (i + 1)
                        t' files2 jp hinner k f (by omega) (by omega) hr
                      rw [hfz] at this
                      simp at this

/-! ## Trace soundness: a relocated file is never touched again -/

lemma noTouch_nil (f : FSFile) : NoTouch f [] := by
  intro e he
  simp at he

lemma noTouch_append {f : FSFile} {t1 t2 : List Ev}
    (h1 : NoTouch f t1) (h2 : NoTouch f t2) : NoTouch f (t1 ++ t2) := by
  intro e he
  rcases List.mem_append.mp he with he | he
  · exact h1 e he
  · exact h2 e he

lemma noTouch_of_cons {f : FSFile} {e : Ev} {t : List Ev}
    (h : NoTouch f (e :: t)) : NoTouch f t :=
  fun x hx => h x (List.mem_cons_of_mem _ hx)

lemma soundT_of_noTouch {f : FSFile} {t : List Ev} (h : NoTouch f t) :
    SoundT f t := by
  intro t1 d t2 ht
  exfalso
  have : Ev.move f d ∈ t := by
    rw [ht]
    exact List.mem_append.mpr (Or.inr (List.mem_cons_self _ _))
  have := h _ this
  simp [mentions] at this

lemma soundT_cons {f : FSFile} {e : Ev} {t : List Ev}
    (hhead : ∀ d, e = Ev.move f d → NoTouch f t)
    (htail : SoundT f t) : SoundT f (e :: t) := by
  intro t1 d t2 ht
  cases t1 with
  | nil =>
    simp only [List.nil_append, List.cons.injEq] at ht
    obtain ⟨h1, h2⟩ := ht
    rw [← h2]
    exact hhead d h1
  | cons x t1 =>
    simp only [List.cons_append, List.cons.injEq] at ht
    obtain ⟨-, h2⟩ := ht
    exact htail t1 d t2 h2

lemma soundT_of_cons {f : FSFile} {e : Ev} {t : List Ev}
    (h : SoundT f (e :: t)) : SoundT f t := by
  intro t1 d t2 ht
  exact h (e :: t1) d t2 (by rw [ht]; rfl)

lemma soundT_append {f : FSFile} {t1 t2 : List Ev}
    (h1 : SoundT f t1) (h2 : SoundT f t2)
    (hmid : ∀ d, Ev.move f d ∈ t1 → NoTouch f t2) :
    SoundT f (t1 ++ t2) := by
  induction t1 with
  | nil => simpa using h2
  | cons e t1 ih =>
    rw [List.cons_append]
    refine soundT_cons ?_ ?_
    · intro d he
      refine noTouch_append ?_ (hmid d (by rw [he]; exact List.mem_cons_self _ _))
      intro x hx
      have := h1 [] d t1 (by rw [he]; rfl)
      exact this x hx
    · exact ih (soundT_of_cons h1)
        (fun d hd => hmid d (List.mem_cons_of_mem _ hd))

lemma filterMap_set_none_sublist :
    ∀ (l : List (Option FSFile)) (k : Nat),
      ((l.set k none).filterMap id).Sublist (l.filterMap id) := by
  intro l
  induction l with
  | nil => intro k; simp
  | cons x xs ih =>
    intro k
    cases k with
    | zero =>
      cases x with
      | none => simp
      | some a =>
        simp only [List.set_cons_zero, List.filterMap_cons]
        simp only [id]
        exact List.sublist_cons_of_sublist a (List.Sublist.refl _)
    | succ k =>
      cases x with
      | none =>
        simp only [List.set_cons_succ, List.filterMap_cons]
        simp only [id]
        exact ih k
      | some a =>
        simp only [List.set_cons_succ, List.filterMap_cons]
        simp only [id]
        exact List.Sublist.cons₂ a (ih k)

lemma namesNodup_set_none {l : List (Option FSFile)} (k : Nat)
    (h : NamesNodup l) : NamesNodup (l.set k none) :=
  List.Nodup.sublist (List.Sublist.map FSFile.name (filterMap_set_none_sublist l k)) h

lemma name_mem_of_slot {l : List (Option FSFile)} {k : Nat} {f : FSFile}
    (h : l.getD k none = some f) :
    f.name ∈ (l.filterMap id).map FSFile.name := by
  refine List.mem_map.mpr ⟨f, ?_, rfl⟩
  refine List.mem_filterMap.mpr ⟨some f, slot_mem h, rfl⟩

lemma namesNodup_slot_ne :
    ∀ (l : List (Option FSFile)), NamesNodup l →
      ∀ k1 k2 a b, l.getD k1 none = some a → l.getD k2 none = some b →
        k1 ≠ k2 → a.name ≠ b.name := by
  intro l
  induction l with
  | nil =>
    intro _ k1 k2 a b h1
    simp [List.getD] at h1
  | cons x xs ih =>
    intro hnd k1 k2 a b h1 h2 hne
    have hndTail : NamesNodup xs := by
      cases x with
      | none => simpa [NamesNodup, List.filterMap_cons] using hnd
      | some c =>
        simp only [NamesNodup, List.filterMap_cons, id, List.map_cons] at hnd
        exact hnd.of_cons
    cases k1 with
    | zero =>
      simp only [List.getD_cons_zero] at h1
      subst h1
      cases k2 with
      | zero => exact absurd rfl hne
      | succ k2 =>
        simp only [List.getD_cons_succ] at h2
        simp only [NamesNodup, List.filterMap_cons, id, List.map_cons,
          List.nodup_cons] at hnd
        intro hab
        exact hnd.1 (hab ▸ name_mem_of_slot h2)
    | succ k1 =>
      simp only [List.getD_cons_succ] at h1
      cases k2 with
      | zero =>
        simp only [List.getD_cons_zero] at h2
        subst h2
        simp only [NamesNodup, List.filterMap_cons, id, List.map_cons,
          List.nodup_cons] at hnd
        intro hab
        exact hnd.1 (hab ▸ name_mem_of_slot h1)
      | succ k2 =>
        simp only [List.getD_cons_succ] at h2
        exact ih hndTail k1 k2 a b h1 h2 (by omega)

/-- Setting the unique slot of a file to none removes it from the working
set entirely. -/
lemma slot_gone {l : List (Option FSFile)} {k : Nat} {f : FSFile}
    (hnd : NamesNodup l) (h : l.getD k none = some f) :
    some f ∉ l.set k none := by
  intro hmem
  obtain ⟨m, hm⟩ := mem_slot hmem
  by_cases hmk : m = k
  · rw [hmk, slot_set_same] at hm
    simp at hm
  · rw [slot_set_ne none (fun hh => hmk hh.symm)] at hm
    exact namesNodup_slot_ne l hnd m k f f hm h hmk rfl

lemma inner_nomem_mono (cfg : Config) (file1 : FSFile) (ts1 : Multiset String) (i : Nat)
    {fuel : Nat} {files : List (Option FSFile)} {j : Nat} {t : List Ev}
    {files2 : List (Option FSFile)} {ex : InnerExit} {f : FSFile}
    (h : innerGo cfg file1 ts1 i fuel files j = some (t, Except.ok (files2, ex)))
    (hf : some f ∉ files) : some f ∉ files2 := by
  intro hmem
  obtain ⟨k, hk⟩ := mem_slot hmem
  rcases inner_slots cfg file1 ts1 i fuel files j t files2 ex h k with hs | hs
  · rw [hk] at hs
    exact hf (slot_mem hs.symm)
  · rw [hk] at hs
    simp at hs

/-- A file absent from the working set and different from the anchor is
never touched by the inner scan. -/
lemma inner_fresh (cfg : Config) (file1 : FSFile) (ts1 : Multiset String) (i : Nat) :
    ∀ fuel files j t r f,
      some f ∉ files → f ≠ file1 →
      innerGo cfg file1 ts1 i fuel files j = some (t, r) →
      NoTouch f t := by
  intro fuel
  induction fuel with
  | zero =>
    intro files j t r f hnm hne h
    rw [innerGo_zero] at h
    split at h
    · simp at h
    · simp only [Option.some.injEq, Prod.mk.injEq] at h
      obtain ⟨h1, -⟩ := h
      rw [← h1]
      exact noTouch_nil f
  | succ fuel ih =>
    intro files j t r f hnm hne h
    rw [innerGo_succ] at h
    split at h
    case isFalse hj =>
      simp only [Option.some.injEq, Prod.mk.injEq] at h
      obtain ⟨h1, -⟩ := h
      rw [← h1]
      exact noTouch_nil f
    case isTrue hj =>
      have hnmSet : some f ∉ files.set j none :=
        fun hmem => hnm (mem_of_mem_set hmem)
      split at h
      case h_1 heq => exact ih files (j + 1) t r f hnm hne h
      case h_2 file2 heq =>
        have hne2 : file2 ≠ f := by
          intro hh
          exact hnm (hh ▸ slot_mem heq)
        have hm2 : mentions f (Ev.readF file2) = false := by
          simp [mentions, hne2]
        have hm3 : ∀ d, mentions f (Ev.move file2 d) = false := by
          intro d; simp [mentions, hne2]
        have hm4 : mentions f (Ev.cmpTokens file1 file2) = false := by
          simp [mentions, hne2]
          intro hh
          exact absurd hh.symm hne
        have hm5 : ∀ d, mentions f (Ev.move file1 d) = false := by
          intro d
          simp [mentions]
          intro hh
          exact absurd hh.symm hne
        split at h
        case isTrue hzip =>
          split at h
          case h_1 hrec => simp at h
          case h_2 p t' r' hrec =>
            simp only [Option.some.injEq, Prod.mk.injEq] at h
            obtain ⟨h1, -⟩ := h
            rw [← h1]
            intro e he
            rcases List.mem_cons.mp he with he | he
            · rw [he]; exact hm3 _
            · exact ih (files.set j none) (j + 1) t' r' f hnmSet hne hrec e he
        case isFalse hzip =>
          split at h
          case isTrue hname =>
            split at h
            case h_1 hrec => simp at h
            case h_2 p t' r' hrec =>
              simp only [Option.some.injEq, Prod.mk.injEq] at h
              obtain ⟨h1, -⟩ := h
              rw [← h1]
              intro e he
              rcases List.mem_cons.mp he with he | he
              · rw [he]; exact hm3 _
              · exact ih (files.set j none) (j + 1) t' r' f hnmSet hne hrec e he
          case isFalse hname =>
            split at h
            case isTrue hlow =>
              simp only [Option.some.injEq, Prod.mk.injEq] at h
              obtain ⟨h1, -⟩ := h
              rw [← h1]
              intro e he
              rcases List.mem_cons.mp he with he | he
              · rw [he]; exact hm2
              · simp at he
            case isFalse hlow =>
              split at h
              case h_1 e hgap =>
                simp only [Option.some.injEq, Prod.mk.injEq] at h
                obtain ⟨h1, -⟩ := h
                rw [← h1]
                exact noTouch_nil f
              case h_2 hgap =>
                simp only [Option.some.injEq, Prod.mk.injEq] at h
                obtain ⟨h1, -⟩ := h
                rw [← h1]
                intro e he
                rcases List.mem_cons.mp he with he | he
                · rw [he]; exact hm2
                · simp at he
              case h_3 hgap =>
                split at h
                case h_1 e hcmp =>
                  simp only [Option.some.injEq, Prod.mk.injEq] at h
                  obtain ⟨h1, -⟩ := h
                  rw [← h1]
                  intro e he
                  rcases List.mem_cons.mp he with he | he
                  · rw [he]; exact hm4
                  · simp at he
                case h_2 similarity hcmp =>
                  split at h
                  case isTrue hskip =>
                    simp only [Option.some.injEq, Prod.mk.injEq] at h
                    obtain ⟨h1, -⟩ := h
                    rw [← h1]
                    intro e he
                    rcases List.mem_cons.mp he with he | he
                    · rw [he]; exact hm4
                    · rcases List.mem_cons.mp he with he | he
                      · rw [he]; exact hm2
                      · simp at he
                  case isFalse hskip =>
                    split at h
                    case isTrue hdup =>
                      split at h
                      case isTrue hsz =>
                        simp only [Option.some.injEq, Prod.mk.injEq] at h
                        obtain ⟨h1, -⟩ := h
                        rw [← h1]
                        intro e he
                        rcases List.mem_cons.mp he with he | he
                        · rw [he]; exact hm4
                        · rcases List.mem_cons.mp he with he | he
                          · rw [he]; exact hm5 _
                          · simp at he
                      case isFalse hsz =>
                        split at h
                        case h_1 hrec => simp at h
                        case h_2 p t' r' hrec =>
                          simp only [Option.some.injEq, Prod.mk.injEq] at h
                          obtain ⟨h1, -⟩ := h
                          rw [← h1]
                          intro e he
                          rcases List.mem_cons.mp he with he | he
                          · rw [he]; exact hm4
                          · rcases List.mem_cons.mp he with he | he
                            · rw [he]; exact hm3 _
                            · exact ih (files.set j none) (j + 1) t' r' f hnmSet hne
                                hrec e he
                    case isFalse hdup =>
                      split at h
                      case h_1 hrec => simp at h
                      case h_2 p t' r' hrec =>
                        simp only [Option.some.injEq, Prod.mk.injEq] at h
                        obtain ⟨h1, -⟩ := h
                        rw [← h1]
                        intro e he
                        rcases List.mem_cons.mp he with he | he
                        · rw [he]; exact hm4
                        · exact ih files (j + 1) t' r' f hnm hne hrec e he

/-- A file absent from the working set is never touched by the outer
loop. -/
lemma outer_fresh (cfg : Config) :
    ∀ fuel files i t r f,
      some f ∉ files →
      outerGo cfg fuel files i = some (t, r) →
      NoTouch f t := by
  intro fuel
  induction fuel with
  | zero =>
    intro files i t r f hnm h
    rw [outerGo_zero] at h
    split at h
    · simp at h
    · simp only [Option.some.injEq, Prod.mk.injEq] at h
      obtain ⟨h1, -⟩ := h
      rw [← h1]
      exact noTouch_nil f
  | succ fuel ih =>
    intro files i t r f hnm h
    rw [outerGo_succ] at h
    split at h
    case isFalse hi =>
      simp only [Option.some.injEq, Prod.mk.injEq] at h
      obtain ⟨h1, -⟩ := h
      rw [← h1]
      exact noTouch_nil f
    case isTrue hi =>
      have hnmSet : some f ∉ files.set i none :=
        fun hmem => hnm (mem_of_mem_set hmem)
      split at h
      case h_1 heq => exact ih files (i + 1) t r f hnm h
      case h_2 file1 heq =>
        have hne1 : file1 ≠ f := by
          intro hh
          exact hnm (hh ▸ slot_mem heq)
        split at h
        case isTrue hzip =>
          split at h
          case h_1 hrec => simp at h
          case h_2 p t' r' hrec =>
            simp only [Option.some.injEq, Prod.mk.injEq] at h
            obtain ⟨h1, -⟩ := h
            rw [← h1]
            intro e he
            rcases List.mem_cons.mp he with he | he
            · rw [he]; simp [mentions, hne1]
            · exact ih (files.set i none) (i + 1) t' r' f hnmSet hrec e he
        case isFalse hzip =>
          split at h
          case h_1 hinner => simp at h
          case h_2 p t' e0 hinner =>
            simp only [Option.some.injEq, Prod.mk.injEq] at h
            obtain ⟨h1, -⟩ := h
            rw [← h1]
            intro e he
            rcases List.mem_cons.mp he with he | he
            · rw [he]; simp [mentions, hne1]
            · exact inner_fresh cfg file1 (get_token_set file1.content) i
                files.length files (i + 1) t' (Except.error e0) f hnm
                (fun hh => hne1 hh.symm) hinner e he
          case h_3 p t' files2 ex hinner =>
            split at h
            case h_1 hrec => simp at h
            case h_2 p2 t2 r2 hrec =>
              simp only [Option.some.injEq, Prod.mk.injEq] at h
              obtain ⟨h1, -⟩ := h
              rw [← h1]
              intro e he
              rcases List.mem_cons.mp he with he | he
              · rw [he]; simp [mentions, hne1]
              · rcases List.mem_append.mp he with he | he
                · exact inner_fresh cfg file1 (get_token_set file1.content) i
                    files.length files (i + 1) t' (Except.ok (files2, ex)) f hnm
                    (fun hh => hne1 hh.symm) hinner e he
                · have hnm2 : some f ∉ files2 :=
                    inner_nomem_mono cfg file1 (get_token_set file1.content) i
                      hinner hnm
                  exact ih files2 (nextIndex i ex) t2 r2 f hnm2 hrec e he

lemma soundT_of_no_move {f : FSFile} {t : List Ev}
    (h : ∀ d, Ev.move f d ∉ t) : SoundT f t := by
  intro t1 d t2 ht
  exfalso
  exact h d (by rw [ht]; exact List.mem_append.mpr (Or.inr (List.mem_cons_self _ _)))

lemma filterMap_sublist_of_slots :
    ∀ (l2 l : List (Option FSFile)), l2.length = l.length →
      (∀ k, l2.getD k none = l.getD k none ∨ l2.getD k none = none) →
      (l2.filterMap id).Sublist (l.filterMap id) := by
  intro l2
  induction l2 with
  | nil => intro l _ _; simp
  | cons x2 xs2 ih =>
    intro l hlen hk
    cases l with
    | nil => simp at hlen
    | cons x xs =>
      have htail : (xs2.filterMap id).Sublist (xs.filterMap id) := by
        refine ih xs (by simpa using hlen) ?_
        intro k
        have := hk (k + 1)
        simpa [List.getD_cons_succ] using this
      have hhead := hk 0
      simp only [List.getD_cons_zero] at hhead
      rcases hhead with hh | hh
      · subst hh
        cases x2 with
        | none => simpa [List.filterMap_cons] using htail
        | some a =>
          simp only [List.filterMap_cons, id]
          exact List.Sublist.cons₂ a htail
      · rw [hh]
        simp only [List.filterMap_cons, id]
        cases x with
        | none => simpa using htail
        | some a => exact List.sublist_cons_of_sublist a htail

/-- The inner scan preserves distinctness of the names of the working
set. -/
lemma inner_namesNodup (cfg : Config) (file1 : FSFile) (ts1 : Multiset String) (i : Nat)
    {fuel : Nat} {files : List (Option FSFile)} {j : Nat} {t : List Ev}
    {files2 : List (Option FSFile)} {ex : InnerExit}
    (h : innerGo cfg file1 ts1 i fuel files j = some (t, Except.ok (files2, ex)))
    (hnd : NamesNodup files) : NamesNodup files2 := by
  refine List.Nodup.sublist (List.Sublist.map FSFile.name ?_) hnd
  exact filterMap_sublist_of_slots files2 files
    (inner_len cfg file1 ts1 i fuel files j t files2 ex h)
    (inner_slots cfg file1 ts1 i fuel files j t files2 ex h)

lemma file_ne_of_slots {l : List (Option FSFile)} {k1 k2 : Nat} {a b : FSFile}
    (hnd : NamesNodup l) (h1 : l.getD k1 none = some a) (h2 : l.getD k2 none = some b)
    (hne : k1 ≠ k2) : a ≠ b := by
  intro hab
  exact namesNodup_slot_ne l hnd k1 k2 a b h1 h2 hne (by rw [hab])

/-- After the inner scan, a file it moved no longer occupies any slot of
the resulting working set. -/
lemma inner_move_gone (cfg : Config) (file1 : FSFile) (ts1 : Multiset String) (i : Nat) :
    ∀ fuel files j t files2 ex,
      NamesNodup files → files.getD i none = some file1 → i < j →
      innerGo cfg file1 ts1 i fuel files j = some (t, Except.ok (files2, ex)) →
      ∀ f d, Ev.move f d ∈ t → some f ∉ files2 := by
  intro fuel
  induction fuel with
  | zero =>
    intro files j t files2 ex hnd hai hij h f d hf
    rw [innerGo_zero] at h
    split at h
    · simp at h
    · simp only [Option.some.injEq, Prod.mk.injEq, Except.ok.injEq] at h
      obtain ⟨h1, -, -⟩ := h
      rw [← h1] at hf
      simp at hf
  | succ fuel ih =>
    intro files j t files2 ex hnd hai hij h f d hf
    rw [innerGo_succ] at h
    split at h
    case isFalse hj =>
      simp only [Option.some.injEq, Prod.mk.injEq, Except.ok.injEq] at h
      obtain ⟨h1, -, -⟩ := h
      rw [← h1] at hf
      simp at hf
    case isTrue hj =>
      have hndSet : NamesNodup (files.set j none) := namesNodup_set_none j hnd
      have haiSet : (files.set j none).getD i none = some file1 := by
        rw [slot_set_ne none (by omega)]
        exact hai
      split at h
      case h_1 heq =>
        exact ih files (j + 1) t files2 ex hnd hai (by omega) h f d hf
      case h_2 file2 heq =>
        have hgone2 : some file2 ∉ files.set j none := slot_gone hnd heq
        split at h
        case isTrue hzip =>
          split at h
          case h_1 hrec => simp at h
          case h_2 p t' r' hrec =>
            simp only [Option.some.injEq, Prod.mk.injEq] at h
            obtain ⟨h1, h2⟩ := h
            subst h2
            rw [← h1] at hf
            rcases List.mem_cons.mp hf with hf | hf
            · simp only [Ev.move.injEq] at hf
              rw [hf.1]
              exact inner_nomem_mono cfg file1 ts1 i hrec hgone2
            · exact ih (files.set j none) (j + 1) t' files2 ex hndSet haiSet (by omega)
                hrec f d hf
        case isFalse hzip =>
          split at h
          case isTrue hname =>
            split at h
            case h_1 hrec => simp at h
            case h_2 p t' r' hrec =>
              simp only [Option.some.injEq, Prod.mk.injEq] at h
              obtain ⟨h1, h2⟩ := h
              subst h2
              rw [← h1] at hf
              rcases List.mem_cons.mp hf with hf | hf
              · simp only [Ev.move.injEq] at hf
                rw [hf.1]
                exact inner_nomem_mono cfg file1 ts1 i hrec hgone2
              · exact ih (files.set j none) (j + 1) t' files2 ex hndSet haiSet (by omega)
                  hrec f d hf
          case isFalse hname =>
            split at h
            case isTrue hlow =>
              simp only [Option.some.injEq, Prod.mk.injEq, Except.ok.injEq] at h
              obtain ⟨h1, -, -⟩ := h
              rw [← h1] at hf
              simp at hf
            case isFalse hlow =>
              split at h
              case h_1 e hgap => simp at h
              case h_2 hgap =>
                simp only [Option.some.injEq, Prod.mk.injEq, Except.ok.injEq] at h
                obtain ⟨h1, -, -⟩ := h
                rw [← h1] at hf
                simp at hf
              case h_3 hgap =>
                split at h
                case h_1 e hcmp => simp at h
                case h_2 similarity hcmp =>
                  split at h
                  case isTrue hskip =>
                    simp only [Option.some.injEq, Prod.mk.injEq, Except.ok.injEq] at h
                    obtain ⟨h1, -, -⟩ := h
                    rw [← h1] at hf
                    simp at hf
                  case isFalse hskip =>
                    split at h
                    case isTrue hdup =>
                      split at h
                      case isTrue hsz =>
                        simp only [Option.some.injEq, Prod.mk.injEq, Except.ok.injEq] at h
                        obtain ⟨h1, h2, -⟩ := h
                        rw [← h1] at hf
                        rcases List.mem_cons.mp hf with hf | hf
                        · simp at hf
                        · rcases List.mem_cons.mp hf with hf | hf
                          · simp only [Ev.move.injEq] at hf
                            rw [hf.1, ← h2]
                            exact slot_gone hnd hai
                          · simp at hf
                      case isFalse hsz =>
                        split at h
                        case h_1 hrec => simp at h
                        case h_2 p t' r' hrec =>
                          simp only [Option.some.injEq, Prod.mk.injEq] at h
                          obtain ⟨h1, h2⟩ := h
                          subst h2
                          rw [← h1] at hf
                          rcases List.mem_cons.mp hf with hf | hf
                          · simp at hf
                          · rcases List.mem_cons.mp hf with hf | hf
                            · simp only [Ev.move.injEq] at hf
                              rw [hf.1]
                              exact inner_nomem_mono cfg file1 ts1 i hrec hgone2
                            · exact ih (files.set j none) (j + 1) t' files2 ex hndSet
                                haiSet (by omega) hrec f d hf
                    case isFalse hdup =>
                      split at h
                      case h_1 hrec => simp at h
                      case h_2 p t' r' hrec =>
                        simp only [Option.some.injEq, Prod.mk.injEq] at h
                        obtain ⟨h1, h2⟩ := h
                        subst h2
                        rw [← h1] at hf
                        rcases List.mem_cons.mp hf with hf | hf
                        · simp at hf
                        · exact ih files (j + 1) t' files2 ex hnd hai (by omega) hrec f d hf

/-- Within one inner scan, once a file is moved the rest of the scan never
touches it. -/
lemma inner_sound (cfg : Config) (file1 : FSFile) (ts1 : Multiset String) (i : Nat) :
    ∀ fuel files j t r,
      NamesNodup files → files.getD i none = some file1 → i < j →
      innerGo cfg file1 ts1 i fuel files j = some (t, r) →
      ∀ f, SoundT f t := by
  intro fuel
  induction fuel with
  | zero =>
    intro files j t r hnd hai hij h f
    rw [innerGo_zero] at h
    split at h
    · simp at h
    · simp only [Option.some.injEq, Prod.mk.injEq] at h
      obtain ⟨h1, -⟩ := h
      rw [← h1]
      exact soundT_of_noTouch (noTouch_nil f)
  | succ fuel ih =>
    intro files j t r hnd hai hij h f
    rw [innerGo_succ] at h
    split at h
    case isFalse hj =>
      simp only [Option.some.injEq, Prod.mk.injEq] at h
      obtain ⟨h1, -⟩ := h
      rw [← h1]
      exact soundT_of_noTouch (noTouch_nil f)
    case isTrue hj =>
      have hndSet : NamesNodup (files.set j none) := namesNodup_set_none j hnd
      have haiSet : (files.set j none).getD i none = some file1 := by
        rw [slot_set_ne none (by omega)]
        exact hai
      split at h
      case h_1 heq =>
        exact ih files (j + 1) t r hnd hai (by omega) h f
      case h_2 file2 heq =>
        have hne21 : file2 ≠ file1 := file_ne_of_slots hnd heq hai (by omega)
        have hgone2 : some file2 ∉ files.set j none := slot_gone hnd heq
        have hmoveHead : ∀ t' r',
            innerGo cfg file1 ts1 i fuel (files.set j none) (j + 1) = some (t', r') →
            ∀ d2 d, (Ev.move file2 d2 : Ev) = Ev.move f d → NoTouch f t' := by
          intro t' r' hrec d2 d hfd
          simp only [Ev.move.injEq] at hfd
          rw [← hfd.1]
          exact inner_fresh cfg file1 ts1 i fuel (files.set j none) (j + 1) t' r'
            file2 hgone2 hne21 hrec
        split at h
        case isTrue hzip =>
          split at h
          case h_1 hrec => simp at h
          case h_2 p t' r' hrec =>
            simp only [Option.some.injEq, Prod.mk.injEq] at h
            obtain ⟨h1, -⟩ := h
            rw [← h1]
            refine soundT_cons (fun d hd => hmoveHead t' r' hrec Dest.zip d hd) ?_
            exact ih (files.set j none) (j + 1) t' r' hndSet haiSet (by omega) hrec f
        case isFalse hzip =>
          split at h
          case isTrue hname =>
            split at h
            case h_1 hrec => simp at h
            case h_2 p t' r' hrec =>
              simp only [Option.some.injEq, Prod.mk.injEq] at h
              obtain ⟨h1, -⟩ := h
              rw [← h1]
              refine soundT_cons (fun d hd => hmoveHead t' r' hrec Dest.dup d hd) ?_
              exact ih (files.set j none) (j + 1) t' r' hndSet haiSet (by omega) hrec f
          case isFalse hname =>
            split at h
            case isTrue hlow =>
              simp only [Option.some.injEq, Prod.mk.injEq] at h
              obtain ⟨h1, -⟩ := h
              rw [← h1]
              refine soundT_of_no_move ?_
              intro d hd
              simp at hd
            case isFalse hlow =>
              split at h
              case h_1 e hgap =>
                simp only [Option.some.injEq, Prod.mk.injEq] at h
                obtain ⟨h1, -⟩ := h
                rw [← h1]
                exact soundT_of_noTouch (noTouch_nil f)
              case h_2 hgap =>
                simp only [Option.some.injEq, Prod.mk.injEq] at h
                obtain ⟨h1, -⟩ := h
                rw [← h1]
                refine soundT_of_no_move ?_
                intro d hd
                simp at hd
              case h_3 hgap =>
                split at h
                case h_1 e hcmp =>
                  simp only [Option.some.injEq, Prod.mk.injEq] at h
                  obtain ⟨h1, -⟩ := h
                  rw [← h1]
                  refine soundT_of_no_move ?_
                  intro d hd
                  simp at hd
                case h_2 similarity hcmp =>
                  split at h
                  case isTrue hskip =>
                    simp only [Option.some.injEq, Prod.mk.injEq] at h
                    obtain ⟨h1, -⟩ := h
                    rw [← h1]
                    refine soundT_of_no_move ?_
                    intro d hd
                    simp at hd
                  case isFalse hskip =>
                    split at h
                    case isTrue hdup =>
                      split at h
                      case isTrue hsz =>
                        simp only [Option.some.injEq, Prod.mk.injEq] at h
                        obtain ⟨h1, -⟩ := h
                        rw [← h1]
                        refine soundT_cons (fun d hd => by simp at hd) ?_
                        refine soundT_cons (fun d hd => noTouch_nil f) ?_
                        exact soundT_of_noTouch (noTouch_nil f)
                      case isFalse hsz =>
                        split at h
                        case h_1 hrec => simp at h
                        case h_2 p t' r' hrec =>
                          simp only [Option.some.injEq, Prod.mk.injEq] at h
                          obtain ⟨h1, -⟩ := h
                          rw [← h1]
                          refine soundT_cons (fun d hd => by simp at hd) ?_
                          refine soundT_cons
                            (fun d hd => hmoveHead t' r' hrec Dest.dup d hd) ?_
                          exact ih (files.set j none) (j + 1) t' r' hndSet haiSet
                            (by omega) hrec f
                    case isFalse hdup =>
                      split at h
                      case h_1 hrec => simp at h
                      case h_2 p t' r' hrec =>
                        simp only [Option.some.injEq, Prod.mk.injEq] at h
                        obtain ⟨h1, -⟩ := h
                        rw [← h1]
                        refine soundT_cons (fun d hd => by simp at hd) ?_
                        exact ih files (j + 1) t' r' hnd hai (by omega) hrec f

/-- Over a whole run, once a file is moved, the rest of the run never
reads, compares or moves it again. -/
lemma outer_sound (cfg : Config) :
    ∀ fuel files i t r,
      NamesNodup files →
      outerGo cfg fuel files i = some (t, r) →
      ∀ f, SoundT f t := by
  intro fuel
  induction fuel with
  | zero =>
    intro files i t r hnd h f
    rw [outerGo_zero] at h
    split at h
    · simp at h
    · simp only [Option.some.injEq, Prod.mk.injEq] at h
      obtain ⟨h1, -⟩ := h
      rw [← h1]
      exact soundT_of_noTouch (noTouch_nil f)
  | succ fuel ih =>
    intro files i t r hnd h f
    rw [outerGo_succ] at h
    split at h
    case isFalse hi =>
      simp only [Option.some.injEq, Prod.mk.injEq] at h
      obtain ⟨h1, -⟩ := h
      rw [← h1]
      exact soundT_of_noTouch (noTouch_nil f)
    case isTrue hi =>
      split at h
      case h_1 heq => exact ih files (i + 1) t r hnd h f
      case h_2 file1 heq =>
        split at h
        case isTrue hzip =>
          split at h
          case h_1 hrec => simp at h
          case h_2 p t' r' hrec =>
            simp only [Option.some.injEq, Prod.mk.injEq] at h
            obtain ⟨h1, -⟩ := h
            rw [← h1]
            refine soundT_cons ?_ ?_
            · intro d hd
              simp only [Ev.move.injEq] at hd
              rw [← hd.1]
              exact outer_fresh cfg fuel (files.set i none) (i + 1) t' r' file1
                (slot_gone hnd heq) hrec
            · exact ih (files.set i none) (i + 1) t' r' (namesNodup_set_none i hnd) hrec f
        case isFalse hzip =>
          split at h
          case h_1 hinner => simp at h
          case h_2 p t' e0 hinner =>
            simp only [Option.some.injEq, Prod.mk.injEq] at h
            obtain ⟨h1, -⟩ := h
            rw [← h1]
            refine soundT_cons (fun d hd => by simp at hd) ?_
            exact inner_sound cfg file1 (get_token_set file1.content) i
              files.length files (i + 1) t' (Except.error e0) hnd heq (by omega) hinner f
          case h_3 p t' files2 ex hinner =>
            split at h
            case h_1 hrec => simp at h
            case h_2 p2 t2 r2 hrec =>
              simp only [Option.some.injEq, Prod.mk.injEq] at h
              obtain ⟨h1, -⟩ := h
              rw [← h1]
              refine soundT_cons (fun d hd => by simp at hd) ?_
              refine soundT_append ?_ ?_ ?_
              · exact inner_sound cfg file1 (get_token_set file1.content) i
                  files.length files (i + 1) t' (Except.ok (files2, ex)) hnd heq
                  (by omega) hinner f
              · exact ih files2 (nextIndex i ex) t2 r2
                  (inner_namesNodup cfg file1 (get_token_set file1.content) i hinner hnd)
                  hrec f
              · intro d hd
                have hgone := inner_move_gone cfg file1 (get_token_set file1.content) i
                  files.length files (i + 1) t' files2 ex hnd heq (by omega) hinner f d hd
                exact outer_fresh cfg fuel files2 (nextIndex i ex) t2 r2 f hgone hrec

/-! ## Step equations for the duplicate branch and loop boundaries -/

/-- The duplicate-resolution step of the inner scan (lines 166-175): once
a candidate passes the name-similarity band, the size-gap check and the
token comparison, and the score exceeds the ratio threshold, the smaller
file of the pair is moved to the duplicates area: an anchor strictly
smaller than the candidate is moved, its slot is emptied and the scan ends
with the anchor consumed; otherwise (a tie keeps the anchor) the candidate
is moved, its slot is emptied and the scan continues with the same
anchor. -/
lemma innerGo_dup_step (cfg : Config) (file1 : FSFile) (ts1 : Multiset String)
    (i fuel : Nat) (files : List (Option FSFile)) (j : Nat) (file2 : FSFile)
    (hj : j < files.length) (hget : files.getD j none = some file2)
    (hzip : pyEndsWith file2.name ".zip" = false)
    (hn1 : ¬ mkRat 7 10 ≤ compare_filenames cfg file1.name file2.name)
    (hn2 : ¬ compare_filenames cfg file1.name file2.name ≤ mkRat 3 10)
    (hgap : size_gap_exceeds cfg file1.size file2.size = Except.ok false)
    (q : ℚ) (hq : compare_token_sets ts1 (get_token_set file2.content) = Except.ok q)
    (hskip : ¬ q < cfg.similarity_skip_threshold)
    (hdup : cfg.similarity_ratio_threshold < q) :
    innerGo cfg file1 ts1 i (fuel + 1) files j =
      if file1.size < file2.size then
        some ([Ev.cmpTokens file1 file2, Ev.move file1 Dest.dup],
          Except.ok (files.set i none, InnerExit.anchorConsumed))
      else
        match innerGo cfg file1 ts1 i fuel (files.set j none) (j + 1) with
        | none => none
        | some (t, r) =>
          some (Ev.cmpTokens file1 file2 :: Ev.move file2 Dest.dup :: t, r) := by
  rw [innerGo_succ]
  simp only [hj, if_true, hget, hzip, hn1, hn2, hgap, hq, hskip, hdup,
    Bool.false_eq_true, if_false, ite_true, ite_false, if_pos, not_false_eq_true]

/-- The outer step on a non-archive anchor whose inner scan succeeded:
read the anchor once, run the scan, resume at the next index. -/
lemma outerGo_anchor_step (cfg : Config) (fuel : Nat) (files : List (Option FSFile))
    (i : Nat) (file1 : FSFile) (hi : i < files.length)
    (hget : files.getD i none = some file1)
    (hzip : pyEndsWith file1.name ".zip" = false)
    (t' : List Ev) (files2 : List (Option FSFile)) (ex : InnerExit)
    (hinner : innerGo cfg file1 (get_token_set file1.content) i
      files.length files (i + 1) = some (t', Except.ok (files2, ex))) :
    outerGo cfg (fuel + 1) files i =
      match outerGo cfg fuel files2 (nextIndex i ex) with
      | none => none
      | some (t2, r2) => some (Ev.readF file1 :: (t' ++ t2), r2) := by
  rw [outerGo_succ]
  simp only [hi, if_true, hget, hzip, Bool.false_eq_true, if_false, hinner,
    ite_true, ite_false]

/-- The outer step on an empty slot advances the index. -/
lemma outerGo_skip_step (cfg : Config) (fuel : Nat) (files : List (Option FSFile))
    (i : Nat) (hi : i < files.length) (hget : files.getD i none = none) :
    outerGo cfg (fuel + 1) files i = outerGo cfg fuel files (i + 1) := by
  rw [outerGo_succ]
  simp only [hi, if_true, hget, ite_true]

/-- The outer loop ends when the index reaches the end of the working
set. -/
lemma outerGo_done (cfg : Config) (fuel : Nat) (files : List (Option FSFile))
    (i : Nat) (hi : ¬ i < files.length) :
    outerGo cfg fuel files i = some ([], Except.ok files) := by
  cases fuel with
  | zero => rw [outerGo_zero]; simp only [hi, if_false, ite_false]
  | succ fuel => rw [outerGo_succ]; simp only [hi, if_false, ite_false]

/-- The inner scan ends exhausted when j reaches the end of the working
set. -/
lemma innerGo_done (cfg : Config) (file1 : FSFile) (ts1 : Multiset String)
    (i fuel : Nat) (files : List (Option FSFile)) (j : Nat)
    (hj : ¬ j < files.length) :
    innerGo cfg file1 ts1 i fuel files j =
      some ([], Except.ok (files, InnerExit.exhausted)) := by
  cases fuel with
  | zero => rw [innerGo_zero]; simp only [hj, if_false, ite_false]
  | succ fuel => rw [innerGo_succ]; simp only [hj, if_false, ite_false]

/-! ## The claims -/

/-- C1: the claim states that a skip at index j promotes files[j] to be
the anchor and restarts the inner scan there (i = j), so that the promoted
file is itself later compared as anchor against all later files. The code
does execute i = j and reloads the content of files[j], but lines 176-179
then increment i unconditionally, so the outer loop resumes at j + 1 and
the promoted file never serves as anchor. On this directory the first
anchor is dissimilar to the second file (similarity 1/4 <= 0.3), the
promotion fires (the trace shows the reload of c1f2), yet c1f2 is never
compared against c1f3: no comparison or move events occur and all three
files remain, although c1f2 and c1f3 are exact duplicates (token overlap
1 > 0.85) within the size-gap threshold and mid-band name similarity. -/
theorem claim1_promoted_file_never_reanchored :
    compare_and_move_files (defaultCfg c1sim) [c1f1, c1f2, c1f3] =
      some ([Ev.readF c1f1, Ev.readF c1f2, Ev.readF c1f3],
        Except.ok [some c1f1, some c1f2, some c1f3]) ∧
    compare_token_sets (get_token_set c1f2.content) (get_token_set c1f3.content) =
      Except.ok 1 ∧
    (defaultCfg c1sim).similarity_ratio_threshold < 1 ∧
    mkRat 3 10 < c1sim c1f2.name c1f3.name ∧
    c1sim c1f2.name c1f3.name < mkRat 7 10 ∧
    size_gap_exceeds (defaultCfg c1sim) c1f2.size c1f3.size = Except.ok false ∧
    c1sim c1f1.name c1f2.name ≤ mkRat 3 10 := by
  refine ⟨by decide, by decide, by decide, by decide, by decide, by decide, by decide⟩

/-- C2 counterexample: two files whose token-overlap score is 1, far above
the ratio threshold, but whose relative size gap (9/12) exceeds the
size-difference threshold: the run ends with both files still in place and
no move to the duplicates area, refuting the claim that for every
directory such a pair has exactly one member relocated. -/
theorem claim2_counterexample :
    compare_token_sets (get_token_set c2A.content) (get_token_set c2B.content) =
      Except.ok 1 ∧
    (defaultCfg midSim).similarity_ratio_threshold < 1 ∧
    compare_and_move_files (defaultCfg midSim) [c2A, c2B] =
      some ([Ev.readF c2A, Ev.readF c2B], Except.ok [some c2A, some c2B]) := by
  refine ⟨by decide, by decide, by decide⟩

/-- C2 amended: for a directory of exactly two non-archive files whose
filename similarity lies strictly between 0.3 and 0.7, whose relative
size gap does not exceed the size-difference threshold, and whose
token-overlap score is defined and exceeds the ratio threshold (with the
skip threshold at most the ratio threshold), exactly one of the two
remains in place, the larger one with a tie kept by the first, and the
other is moved to the duplicates area. -/
theorem claim2_amended (cfg : Config) (A B : FSFile)
    (hAz : pyEndsWith A.name ".zip" = false) (hBz : pyEndsWith B.name ".zip" = false)
    (hf1 : mkRat 3 10 < compare_filenames cfg A.name B.name)
    (hf2 : compare_filenames cfg A.name B.name < mkRat 7 10)
    (hgap : size_gap_exceeds cfg A.size B.size = Except.ok false)
    (q : ℚ)
    (hq : compare_token_sets (get_token_set A.content) (get_token_set B.content) =
      Except.ok q)
    (hthr : cfg.similarity_skip_threshold ≤ cfg.similarity_ratio_threshold)
    (hdup : cfg.similarity_ratio_threshold < q) :
    (A.size < B.size →
      compare_and_move_files cfg [A, B] =
        some ([Ev.readF A, Ev.cmpTokens A B, Ev.move A Dest.dup, Ev.readF B],
          Except.ok [none, some B])) ∧
    (B.size ≤ A.size →
      compare_and_move_files cfg [A, B] =
        some ([Ev.readF A, Ev.cmpTokens A B, Ev.move B Dest.dup],
          Except.ok [some A, none])) := by
  have hn1 : ¬ mkRat 7 10 ≤ compare_filenames cfg A.name B.name := not_le.mpr hf2
  have hn2 : ¬ compare_filenames cfg A.name B.name ≤ mkRat 3 10 := not_le.mpr hf1
  have hskip : ¬ q < cfg.similarity_skip_threshold :=
    not_lt.mpr (le_of_lt (lt_of_le_of_lt hthr hdup))
  have hrun : compare_and_move_files cfg [A, B] =
      outerGo cfg 2 [some A, some B] 0 := rfl
  have hstep := innerGo_dup_step cfg A (get_token_set A.content) 0 1
    ([some A, some B] : List (Option FSFile)) 1 B (by simp) rfl hBz hn1 hn2 hgap
    q hq hskip hdup
  constructor
  · intro hsz
    have h1 : innerGo cfg A (get_token_set A.content) 0
        ([some A, some B] : List (Option FSFile)).length [some A, some B] 1 =
        some ([Ev.cmpTokens A B, Ev.move A Dest.dup],
          Except.ok ([none, some B], InnerExit.anchorConsumed)) := by
      show innerGo cfg A (get_token_set A.content) 0 2 [some A, some B] 1 = _
      rw [hstep, if_pos hsz]
      rfl
    have h2 := outerGo_anchor_step cfg 1 [some A, some B] 0 A (by simp) rfl hAz
      _ _ _ h1
    have h3 : innerGo cfg B (get_token_set B.content) 1
        ([none, some B] : List (Option FSFile)).length [none, some B] 2 =
        some ([], Except.ok ([none, some B], InnerExit.exhausted)) :=
      innerGo_done cfg B (get_token_set B.content) 1 _ [none, some B] 2 (by simp)
    have h4 := outerGo_anchor_step cfg 0 [none, some B] 1 B (by simp) rfl hBz
      _ _ _ h3
    have h5 : outerGo cfg 0 ([none, some B] : List (Option FSFile))
        (nextIndex 1 InnerExit.exhausted) = some ([], Except.ok [none, some B]) :=
      outerGo_done cfg 0 [none, some B] 2 (by simp)
    rw [hrun, h2]
    show (match outerGo cfg 1 [none, some B] 1 with
      | none => none
      | some (t2, r2) =>
        some (Ev.readF A :: ([Ev.cmpTokens A B, Ev.move A Dest.dup] ++ t2), r2)) = _
    rw [h4, h5]
    rfl
  · intro hsz
    have hnsz : ¬ A.size < B.size := not_lt.mpr hsz
    have h1 : innerGo cfg A (get_token_set A.content) 0
        ([some A, some B] : List (Option FSFile)).length [some A, some B] 1 =
        some ([Ev.cmpTokens A B, Ev.move B Dest.dup],
          Except.ok ([some A, none], InnerExit.exhausted)) := by
      show innerGo cfg A (get_token_set A.content) 0 2 [some A, some B] 1 = _
      rw [hstep, if_neg hnsz]
      have hdone : innerGo cfg A (get_token_set A.content) 0 1
          (([some A, some B] : List (Option FSFile)).set 1 none) 2 =
          some ([], Except.ok ([some A, none], InnerExit.exhausted)) :=
        innerGo_done cfg A (get_token_set A.content) 0 1 _ 2 (by simp)
      rw [hdone]
    have h2 := outerGo_anchor_step cfg 1 [some A, some B] 0 A (by simp) rfl hAz
      _ _ _ h1
    rw [hrun, h2]
    show (match outerGo cfg 1 [some A, none] 1 with
      | none => none
      | some (t2, r2) =>
        some (Ev.readF A :: ([Ev.cmpTokens A B, Ev.move B Dest.dup] ++ t2), r2)) = _
    have h6 : outerGo cfg 1 ([some A, none] : List (Option FSFile)) 1 =
        outerGo cfg 0 [some A, none] 2 :=
      outerGo_skip_step cfg 0 [some A, none] 1 (by simp) rfl
    have h7 : outerGo cfg 0 ([some A, none] : List (Option FSFile)) 2 =
        some ([], Except.ok [some A, none]) :=
      outerGo_done cfg 0 [some A, none] 2 (by simp)
    rw [h6, h7]
    rfl

/-- C2 witness: the amended theorem applied to a concrete pair in which
the anchor is the smaller file. -/
theorem claim2_witness :
    compare_and_move_files (defaultCfg midSim) [c7A, c7B] =
      some ([Ev.readF c7A, Ev.cmpTokens c7A c7B, Ev.move c7A Dest.dup,
        Ev.readF c7B], Except.ok [none, some c7B]) :=
  (claim2_amended (defaultCfg midSim) c7A c7B (by decide) (by decide) (by decide)
    (by decide) (by decide) 1 (by decide) (by decide) (by decide)).1 (by decide)

/-- C3 counterexample: compare_token_sets has no guard on its division;
on two empty token multisets (two whitespace-only files) the denominator
is zero and Python raises ZeroDivisionError, which the model surfaces as
an error, refuting the claim that the function is defined there. -/
theorem claim3_counterexample :
    compare_token_sets 0 0 = Except.error PyErr.zeroDivision ∧
    compare_and_move_files (defaultCfg midSim) [c3wA, c3wB] =
      some ([Ev.readF c3wA, Ev.cmpTokens c3wA c3wB],
        Except.error PyErr.zeroDivision) := by
  refine ⟨by decide, by decide⟩

/-- C3 amended: whenever at least one of the two token multisets is
nonempty, compare_token_sets returns the sum of per-token minimum counts
divided by the sum of per-token maximum counts, a value in [0, 1]; with
both multisets empty it raises ZeroDivisionError instead. -/
theorem claim3_amended (set1 set2 : Multiset String)
    (h : ¬(set1 = 0 ∧ set2 = 0)) :
    ∃ q, compare_token_sets set1 set2 = Except.ok q ∧
      q = (Multiset.card (set1 ∩ set2) : ℚ) / (Multiset.card (set1 ∪ set2) : ℚ) ∧
      0 ≤ q ∧ q ≤ 1 := by
  have htot : Multiset.card (set1 ∪ set2) ≠ 0 := by
    intro h0
    rw [Multiset.card_eq_zero] at h0
    exact h ⟨Multiset.le_zero.mp (h0 ▸ Multiset.le_union_left set1 set2),
      Multiset.le_zero.mp (h0 ▸ Multiset.le_union_right set1 set2)⟩
  have hle : Multiset.card (set1 ∩ set2) ≤ Multiset.card (set1 ∪ set2) :=
    Multiset.card_le_card
      (le_trans (Multiset.inter_le_left set1 set2) (Multiset.le_union_left set1 set2))
  refine ⟨mkRat (Multiset.card (set1 ∩ set2)) (Multiset.card (set1 ∪ set2)),
    ?_, ?_, ?_, ?_⟩
  · unfold compare_token_sets
    simp [htot]
  · rw [Rat.mkRat_eq_div]
    push_cast
    rfl
  · rw [Rat.mkRat_eq_div]
    positivity
  · rw [Rat.mkRat_eq_div]
    rw [div_le_one (by positivity)]
    exact_mod_cast hle

/-- C3 witness: the amended theorem applied to two singleton multisets. -/
theorem claim3_witness :
    ∃ q, compare_token_sets {"a"} {"a"} = Except.ok q ∧
      q = (Multiset.card (({"a"} : Multiset String) ∩ {"a"}) : ℚ) /
        (Multiset.card (({"a"} : Multiset String) ∪ {"a"}) : ℚ) ∧
      0 ≤ q ∧ q ≤ 1 :=
  claim3_amended {"a"} {"a"} (by decide)

/-- C4: the claim states that every error surfaced by
compare_and_move_files is the domain-level FileManagerError, including
from the relative size-gap computation when both files have size zero.
The except clause at lines 181-182 of the source only wraps OSError; on a
pair of zero-byte files whose names fall in the middle similarity band
(difflib gives "aaa.txt" and "bbb.txt" the ratio 4/7), line 142 divides
by max(0, 0) and the resulting ZeroDivisionError escapes unwrapped, which
the model records as the raw PyErr.zeroDivision rather than a wrapped
domain error. -/
theorem claim4_zero_division_escapes :
    compare_and_move_files (defaultCfg c4sim) [c4A, c4B] =
      some ([Ev.readF c4A], Except.error PyErr.zeroDivision) ∧
    size_gap_exceeds (defaultCfg c4sim) c4A.size c4B.size =
      Except.error PyErr.zeroDivision := by
  refine ⟨by decide, by decide⟩

/-- C5: over any run of the outer loop on a working set with pairwise
distinct names, a slot that is empty stays empty in the final working
set, and once a move of a file appears in the trace, the remainder of the
trace never reads it, never compares tokens with it on either side and
never moves it again. -/
theorem claim5_consumed_never_revisited (cfg : Config) (fuel : Nat)
    (files : List (Option FSFile)) (i : Nat) (t : List Ev)
    (r : Except PyErr (List (Option FSFile)))
    (hnd : NamesNodup files)
    (hrun : outerGo cfg fuel files i = some (t, r)) :
    (∀ res, r = Except.ok res →
      ∀ k, files.getD k none = none → res.getD k none = none) ∧
    (∀ f t1 d t2, t = t1 ++ Ev.move f d :: t2 → NoTouch f t2) := by
  constructor
  · intro res hres k hk
    subst hres
    rcases outer_slots cfg fuel files i t res hrun k with hs | hs
    · rw [hs, hk]
    · exact hs
  · intro f t1 d t2 ht
    exact outer_sound cfg fuel files i t r hnd hrun f t1 d t2 ht

/-- C5 witness: in a run in which the second of three files is moved to
the duplicates area, the trace after that move never mentions the moved
file again even though the scan continues with further comparisons. -/
theorem claim5_witness :
    NoTouch c5Y [Ev.cmpTokens c5X c5Z, Ev.readF c5Z] :=
  (claim5_consumed_never_revisited (defaultCfg midSim) 3
      [some c5X, some c5Y, some c5Z] 0
      [Ev.readF c5X, Ev.cmpTokens c5X c5Y, Ev.move c5Y Dest.dup,
        Ev.cmpTokens c5X c5Z, Ev.readF c5Z]
      (Except.ok [some c5X, none, some c5Z]) (by decide) (by decide)).2
    c5Y [Ev.readF c5X, Ev.cmpTokens c5X c5Y] Dest.dup
    [Ev.cmpTokens c5X c5Z, Ev.readF c5Z] rfl

/-- C6: in every trace a run produces, every token comparison (which is
the step that reads the content of the candidate for the pair) is over a
pair whose relative size difference was computed and did not exceed
size_difference_threshold: a pair whose gap exceeds the threshold is
pruned before the candidate content read and the comparison (the
candidate content is re-read only as the promoted next anchor, as the
promotion semantics prescribe). -/
theorem claim6_size_gap_prunes (cfg : Config) (fuel : Nat)
    (files : List (Option FSFile)) (i : Nat) (t : List Ev)
    (r : Except PyErr (List (Option FSFile)))
    (hrun : outerGo cfg fuel files i = some (t, r))
    (a b : FSFile) (hev : Ev.cmpTokens a b ∈ t) :
    size_gap_exceeds cfg a.size b.size = Except.ok false :=
  outer_cmp_guarded cfg fuel files i t r hrun a b hev

/-- C6 witness: the theorem applied to a run containing a token
comparison. -/
theorem claim6_witness :
    size_gap_exceeds (defaultCfg midSim) c6A.size c6B.size = Except.ok false :=
  claim6_size_gap_prunes (defaultCfg midSim) 2 [some c6A, some c6B] 0
    [Ev.readF c6A, Ev.cmpTokens c6A c6B, Ev.readF c6B]
    (Except.ok [some c6A, some c6B]) (by decide) c6A c6B (by decide)

/-- C7: when a compared pair passes the earlier checks and its
token-overlap score exceeds similarity_ratio_threshold, the smaller file
is relocated to the duplicates area and the larger kept, a size tie
keeping the anchor: if the anchor is strictly smaller it is moved, its
slot becomes none and the inner scan ends at once with the anchor
consumed, after which the outer loop advances i by exactly one; if the
candidate is moved instead, its slot becomes none and the scan continues
at j + 1 with the same anchor and token set. -/
theorem claim7_duplicate_resolution (cfg : Config) (file1 file2 : FSFile)
    (ts1 : Multiset String) (i fuel j : Nat) (files : List (Option FSFile))
    (hj : j < files.length) (hget : files.getD j none = some file2)
    (hzip : pyEndsWith file2.name ".zip" = false)
    (hn1 : ¬ mkRat 7 10 ≤ compare_filenames cfg file1.name file2.name)
    (hn2 : ¬ compare_filenames cfg file1.name file2.name ≤ mkRat 3 10)
    (hgap : size_gap_exceeds cfg file1.size file2.size = Except.ok false)
    (q : ℚ) (hq : compare_token_sets ts1 (get_token_set file2.content) = Except.ok q)
    (hskip : ¬ q < cfg.similarity_skip_threshold)
    (hdup : cfg.similarity_ratio_threshold < q) :
    (file1.size < file2.size →
      innerGo cfg file1 ts1 i (fuel + 1) files j =
        some ([Ev.cmpTokens file1 file2, Ev.move file1 Dest.dup],
          Except.ok (files.set i none, InnerExit.anchorConsumed))) ∧
    (¬ file1.size < file2.size →
      innerGo cfg file1 ts1 i (fuel + 1) files j =
        (match innerGo cfg file1 ts1 i fuel (files.set j none) (j + 1) with
         | none => none
         | some (t, r) =>
           some (Ev.cmpTokens file1 file2 :: Ev.move file2 Dest.dup :: t, r))) ∧
    nextIndex i InnerExit.anchorConsumed = i + 1 ∧
    (∀ ofuel files0 t0 files2, i < List.length files0 →
      files0.getD i none = some file1 →
      pyEndsWith file1.name ".zip" = false →
      innerGo cfg file1 (get_token_set file1.content) i
        (List.length files0) files0 (i + 1) =
        some (t0, Except.ok (files2, InnerExit.anchorConsumed)) →
      outerGo cfg (ofuel + 1) files0 i =
        (match outerGo cfg ofuel files2 (i + 1) with
         | none => none
         | some (t2, r2) => some (Ev.readF file1 :: (t0 ++ t2), r2))) := by
  have hstep := innerGo_dup_step cfg file1 ts1 i fuel files j file2 hj hget hzip
    hn1 hn2 hgap q hq hskip hdup
  refine ⟨?_, ?_, rfl, ?_⟩
  · intro hsz
    rw [hstep, if_pos hsz]
  · intro hsz
    rw [hstep, if_neg hsz]
  · intro ofuel files0 t0 files2 hi0 hget0 hzip0 hinner0
    have := outerGo_anchor_step cfg ofuel files0 i file1 hi0 hget0 hzip0
      t0 files2 InnerExit.anchorConsumed hinner0
    simpa [nextIndex] using this

/-- C7 witness: the duplicate-resolution theorem applied to a concrete
pair in which the anchor is the smaller file. -/
theorem claim7_witness :
    innerGo (defaultCfg midSim) c7A (get_token_set c7A.content) 0 4
      [some c7A, some c7B] 1 =
      some ([Ev.cmpTokens c7A c7B, Ev.move c7A Dest.dup],
        Except.ok ([none, some c7B], InnerExit.anchorConsumed)) :=
  (claim7_duplicate_resolution (defaultCfg midSim) c7A c7B
    (get_token_set c7A.content) 0 3 1 [some c7A, some c7B] (by decide) (by decide)
    (by decide) (by decide) (by decide) (by decide) 1 (by decide) (by decide)
    (by decide)).1 (by decide)

/-- C8 counterexample: the claim quantifies over every input directory,
but a run can abort with the unwrapped ZeroDivisionError of C4 before it
reaches an archive file: on this directory the third file is named with
the ".zip" suffix, yet the run stops at the zero-size pair before it and
performs no archive move at all. -/
theorem claim8_counterexample :
    compare_and_move_files (defaultCfg c4sim) [c8A, c8B, c8Z] =
      some ([Ev.readF c8A], Except.error PyErr.zeroDivision) ∧
    pyEndsWith c8Z.name ".zip" = true ∧
    Ev.move c8Z Dest.zip ∉ [Ev.readF c8A] := by
  refine ⟨by decide, by decide, by decide⟩

/-- C8 amended: for every run that completes without an escaped
exception, every file of the listing whose name ends in ".zip" is moved
to the archive area, and a second run over the surviving files performs
no archive move, whether or not it completes. -/
theorem claim8_amended (cfg : Config) (listing : List FSFile) (t : List Ev)
    (res : List (Option FSFile))
    (hrun : compare_and_move_files cfg listing = some (t, Except.ok res)) :
    (∀ f, f ∈ listing → pyEndsWith f.name ".zip" = true →
      Ev.move f Dest.zip ∈ t) ∧
    (∀ t2 r2, compare_and_move_files cfg (res.filterMap id) = some (t2, r2) →
      ∀ f, Ev.move f Dest.zip ∉ t2) := by
  constructor
  · intro f hf hfz
    have hmem : some f ∈ listing.map some := List.mem_map.mpr ⟨f, hf, rfl⟩
    obtain ⟨k, hk⟩ := mem_slot hmem
    exact outer_zip_completeness cfg listing.length (listing.map some) 0 t res
      hrun k f (by omega) hk hfz
  · intro t2 r2 hrun2 f hf
    have hfz : pyEndsWith f.name ".zip" = true :=
      outer_move_zip_name cfg (res.filterMap id).length
        ((res.filterMap id).map some) 0 t2 r2 hrun2 f hf
    have hmem : some f ∈ (res.filterMap id).map some :=
      outer_move_mem cfg (res.filterMap id).length
        ((res.filterMap id).map some) 0 t2 r2 hrun2 f Dest.zip hf
    have hfin : f ∈ res.filterMap id := by
      obtain ⟨g, hg, hgf⟩ := List.mem_map.mp hmem
      simp only [Option.some.injEq] at hgf
      rw [← hgf]
      exact hg
    have hres : some f ∈ res := by
      obtain ⟨o, ho, hof⟩ := List.mem_filterMap.mp hfin
      simp only [id] at hof
      rw [← hof]
      exact ho
    obtain ⟨k, hk⟩ := mem_slot hres
    rcases outer_slots_nonzip cfg listing.length (listing.map some) 0 t res
        hrun k f hk with hnz | ⟨-, hklt⟩
    · rw [hfz] at hnz
      simp at hnz
    · omega

/-- C8 witness: the amended theorem applied to a directory holding one
archive file and one text file. -/
theorem claim8_witness :
    Ev.move c8Z Dest.zip ∈
      [Ev.readF c6A, Ev.move c8Z Dest.zip] :=
  (claim8_amended (defaultCfg midSim) [c6A, c8Z]
    [Ev.readF c6A, Ev.move c8Z Dest.zip] [some c6A, none] (by decide)).1
    c8Z (by decide) (by decide)

/-- C9: for every configuration and every finite directory listing, the
triage pass terminates: the fuel discipline of the embedding allots one
outer iteration per index because the outer index strictly increases on
every iteration (by one normally, and to j + 1 on a promotion at j > i),
and with that fuel the run always completes with a result. -/
theorem claim9_termination (cfg : Config) (listing : List FSFile) :
    ∃ out, compare_and_move_files cfg listing = some out :=
  Option.isSome_iff_exists.mp (compare_and_move_files_isSome cfg listing)

/-- C10: a file is routed to the archive area only if its name ends with
the exact, case-sensitive suffix ".zip": every archive move in any trace
is of such a file, and on a directory holding "A.ZIP" and "b.tar" no
archive move happens at all; the two files are instead compared as
ordinary content files, as the token-comparison event of the run shows. -/
theorem claim10_zip_suffix_exact :
    (∀ (cfg : Config) (fuel : Nat) (files : List (Option FSFile)) (i : Nat)
       (t : List Ev) (r : Except PyErr (List (Option FSFile))) (f : FSFile),
      outerGo cfg fuel files i = some (t, r) →
      Ev.move f Dest.zip ∈ t → pyEndsWith f.name ".zip" = true) ∧
    compare_and_move_files (defaultCfg midSim) [c10A, c10B] =
      some ([Ev.readF c10A, Ev.cmpTokens c10A c10B, Ev.readF c10B],
        Except.ok [some c10A, some c10B]) ∧
    pyEndsWith c10A.name ".zip" = false ∧
    pyEndsWith c10B.name ".zip" = false := by
  refine ⟨?_, by decide, by decide, by decide⟩
  intro cfg fuel files i t r f hrun hf
  exact outer_move_zip_name cfg fuel files i t r hrun f hf

/-- C10 witness: the first part of the theorem applied to a run that does
move an archive file. -/
theorem claim10_witness : pyEndsWith c10Z.name ".zip" = true :=
  claim10_zip_suffix_exact.1 (defaultCfg midSim) 1 [some c10Z] 0
    [Ev.move c10Z Dest.zip] (Except.ok [none]) c10Z (by decide) (by decide)
